import Mathlib

/-! # linkedin-video-dl: a shallow embedding of `main.go`

Go strings are immutable byte sequences, `len` counts bytes and `s[:n]` slices
bytes.  A Go string is therefore modelled as the list of its byte values
(`List Nat`).  The functions below are total on every list, a value of 256 or
more being read as a byte that belongs to no UTF-8 sequence and to no ASCII
class; every theorem holds for all lists, the byte strings among them.
-/

namespace LinkedinVideoDl

/-- A Go `string`: its bytes, in order. -/
abbrev GoString := List Nat

/-- The bytes of an ASCII literal of the source. -/
def ascii (s : String) : GoString := s.toList.map Char.toNat

/-- Go `strings.HasPrefix(s, p)`. -/
def hasPrefix : GoString → GoString → Bool
  | _, [] => true
  | [], _ :: _ => false
  | c :: cs, p :: ps => c == p && hasPrefix cs ps

/-- Go `strings.Contains(s, sub)`: `sub` occurs in `s` as a contiguous run of bytes. -/
def contains : GoString → GoString → Bool
  | [], sub => hasPrefix [] sub
  | c :: cs, sub => hasPrefix (c :: cs) sub || contains cs sub

/-- The literal `".mp4"`. -/
def dotMp4 : GoString := [46, 109, 112, 52]

/-! ## `pickBestVideo` (main.go lines 244-257) -/

/-- One iteration of the `for _, u := range urls` loop of `pickBestVideo`:
the new value of `best` after looking at `u`. -/
def pickStep (best u : GoString) : GoString :=
  if contains u dotMp4 && !contains best dotMp4 then u
  else if u.length > best.length then u
  else best

/-- The function `pickBestVideo`.  `urls[0]` panics on an empty slice, which is
the `none` result; otherwise the loop runs over the whole slice, first
element included, starting from `best = urls[0]`. -/
def pickBestVideo (urls : List GoString) : Option GoString :=
  match urls with
  | [] => none
  | u0 :: _ => some (urls.foldl pickStep u0)

/-! ## UTF-8 (Go packages `unicode/utf8` and `strings`)

`strings.Map` walks its argument rune by rune, as a `for range` loop does: each
step decodes one UTF-8 sequence, and a byte that starts no valid sequence is
read as the rune `utf8.RuneError` (U+FFFD) of width 1.  The mapped rune is then
written back in UTF-8. -/

/-- Go `utf8.RuneError`, the replacement character U+FFFD. -/
def runeError : Nat := 0xFFFD

/-- Go `utf8.DecodeRuneInString` on the non-empty string `s0 :: rest`: the first
rune and its width in bytes.  The ranges are those of the tables `first` and
`acceptRanges` of the package. -/
def decodeRune (s0 : Nat) (rest : GoString) : Nat × Nat :=
  if s0 < 0x80 then (s0, 1)
  else if s0 < 0xC2 then (runeError, 1)
  else if s0 < 0xE0 then
    match rest with
    | s1 :: _ =>
      if 0x80 ≤ s1 ∧ s1 ≤ 0xBF then (s0 % 32 * 64 + s1 % 64, 2) else (runeError, 1)
    | [] => (runeError, 1)
  else if s0 < 0xF0 then
    match rest with
    | s1 :: s2 :: _ =>
      if (if s0 = 0xE0 then 0xA0 else 0x80) ≤ s1 ∧ s1 ≤ (if s0 = 0xED then 0x9F else 0xBF) then
        if 0x80 ≤ s2 ∧ s2 ≤ 0xBF then (s0 % 16 * 4096 + s1 % 64 * 64 + s2 % 64, 3)
        else (runeError, 1)
      else (runeError, 1)
    | _ => (runeError, 1)
  else if s0 < 0xF5 then
    match rest with
    | s1 :: s2 :: s3 :: _ =>
      if (if s0 = 0xF0 then 0x90 else 0x80) ≤ s1 ∧ s1 ≤ (if s0 = 0xF4 then 0x8F else 0xBF) then
        if 0x80 ≤ s2 ∧ s2 ≤ 0xBF then
          if 0x80 ≤ s3 ∧ s3 ≤ 0xBF then
            (s0 % 8 * 262144 + s1 % 64 * 4096 + s2 % 64 * 64 + s3 % 64, 4)
          else (runeError, 1)
        else (runeError, 1)
      else (runeError, 1)
    | _ => (runeError, 1)
  else (runeError, 1)

/-- Go `utf8.AppendRune` (what `strings.Builder.WriteRune` appends): the UTF-8
encoding of the rune `r`; a surrogate or a value above U+10FFFF is written as
U+FFFD. -/
def encodeRune (r : Nat) : GoString :=
  if r ≤ 0x7F then [r]
  else if r ≤ 0x7FF then [0xC0 + r / 64, 0x80 + r % 64]
  else if 0x10FFFF < r ∨ (0xD800 ≤ r ∧ r ≤ 0xDFFF) then [0xEF, 0xBF, 0xBD]
  else if r ≤ 0xFFFF then [0xE0 + r / 4096, 0x80 + r / 64 % 64, 0x80 + r % 64]
  else [0xF0 + r / 262144, 0x80 + r / 4096 % 64, 0x80 + r / 64 % 64, 0x80 + r % 64]

/-- The steps of a `for range` loop over a string: the decoded runes with their
widths.  The first argument counts the bytes of the current rune that are
still to be skipped. -/
def decodeFrom : Nat → GoString → List (Nat × Nat)
  | _, [] => []
  | skip + 1, _ :: cs => decodeFrom skip cs
  | 0, c :: cs => decodeRune c cs :: decodeFrom ((decodeRune c cs).2 - 1) cs

/-- The runes of a string, in the order a `for range` loop yields them. -/
def runes (s : GoString) : List Nat := (decodeFrom 0 s).map Prod.fst

/-- Go `utf8.ValidString`: no step of the decoding is an encoding error
(`RuneError` of width 1). -/
def validUTF8 (s : GoString) : Bool :=
  (decodeFrom 0 s).all fun rw => !(rw.1 == runeError && rw.2 == 1)

/-- The UTF-8 encoding of a sequence of runes. -/
def encodeRunes : List Nat → GoString
  | [] => []
  | r :: rs => encodeRune r ++ encodeRunes rs

/-- Go `strings.Map(mapping, s)` for a mapping that drops no rune: every rune
of `s` is replaced by its image, written in UTF-8. -/
def stringsMap (mapping : Nat → Nat) (s : GoString) : GoString :=
  encodeRunes ((runes s).map mapping)

/-- The rune a decoder reads back from the encoding of `r`: `r` itself, or
U+FFFD when `r` is a surrogate or lies above U+10FFFF. -/
def normRune (r : Nat) : Nat :=
  if 0x10FFFF < r ∨ (0xD800 ≤ r ∧ r ≤ 0xDFFF) then runeError else r

/-- Go `strings.Repeat(s, count)`. -/
def stringsRepeat : Nat → GoString → GoString
  | 0, _ => []
  | n + 1, s => s ++ stringsRepeat n s

/-! ## `buildFilename` (main.go lines 259-288) -/

/-- Go `strings.Split(s, sep)` for a separator `sep` of one byte. -/
def splitByte (sep : Nat) : GoString → List GoString
  | [] => [[]]
  | c :: cs =>
    if c = sep then [] :: splitByte sep cs
    else
      match splitByte sep cs with
      | [] => [[c]]
      | p :: ps => (c :: p) :: ps

/-- The literal `"posts"`. -/
def posts : GoString := [112, 111, 115, 116, 115]

/-- The nine bytes the sanitizer replaces: `/ \ : * ? " < > |`. -/
def isUnsafe (r : Nat) : Bool :=
  r == 47 || r == 92 || r == 58 || r == 42 || r == 63 || r == 34 || r == 60 || r == 62
    || r == 124

/-- The function literal passed to `strings.Map` in `buildFilename`: an unsafe
rune becomes `_`, every other rune is kept. -/
def sanitizeRune (r : Nat) : Nat := if isUnsafe r then 95 else r

/-- The loop of `buildFilename` over `parts`: at the first index `i` with
`parts[i] == "posts"` and `i+1 < len(parts)` it yields
`strings.Split(parts[i+1], "?")[0]` and stops. -/
def findSlug : List GoString → Option GoString
  | [] => none
  | p :: rest =>
    match rest with
    | [] => none
    | next :: _ => if p = posts then (splitByte 63 next).head? else findSlug rest

/-- The value of `name` after the loop of `buildFilename`: the slug, or the
default `"linkedin_video"` when the loop found none. -/
def slugOf (postURL : GoString) : GoString :=
  (findSlug (splitByte 47 postURL)).getD (ascii "linkedin_video")

/-- The truncation step of `buildFilename`: `if len(name) > 80 { name = name[:80] }`. -/
def truncate80 (name : GoString) : GoString :=
  if name.length > 80 then name.take 80 else name

/-- The function `buildFilename`. -/
def buildFilename (postURL : GoString) : GoString :=
  stringsMap sanitizeRune (truncate80 (slugOf postURL)) ++ dotMp4

/-! ## Regular expressions (Go package `regexp`)

The six expressions of `extractVideoURLs` are sequences of literal bytes,
optional bytes (`s?`), greedy repetitions of a character class (`[...]*`,
`[...]+`) and at most one capture group.  Go's `regexp` returns the leftmost
match and, among the matches starting there, the one a backtracking search
finds first; `matchItems` is that backtracking search.  Every literal of these
expressions is ASCII and every class is described by ASCII bytes alone (it
holds no byte above 0x7F, or all of them), and an ASCII byte never lies inside
a multi-byte rune, so matching byte by byte finds the same matches as matching
rune by rune. -/

/-- One element of a regular expression. -/
inductive Item where
  | byte (c : Nat)
  | opt (c : Nat)
  | star (cls : Nat → Bool)
  | plus (cls : Nat → Bool)
  | groupOpen
  | groupClose

/-- The outcome of a match: the input left after it, and the input left at the
opening and at the closing parenthesis of capture group 1. -/
structure MatchResult where
  rest : GoString
  grpStart : GoString
  grpEnd : GoString

/-- Greedy repetition of a class followed by the continuation `k`: the longest
run is tried first, then shorter ones. -/
def starK {α : Type} (cls : Nat → Bool) (k : GoString → Option α) : GoString → Option α
  | [] => k []
  | c :: cs =>
    if cls c then
      match starK cls k cs with
      | some r => some r
      | none => k (c :: cs)
    else k (c :: cs)

/-- The backtracking match of a sequence of items at the start of the input. -/
def matchItems : List Item → GoString → GoString → GoString → Option MatchResult
  | [], gs, ge, s => some ⟨s, gs, ge⟩
  | Item.byte c :: items, gs, ge, s =>
    match s with
    | x :: xs => if x = c then matchItems items gs ge xs else none
    | [] => none
  | Item.opt c :: items, gs, ge, s =>
    match (match s with
      | x :: xs => if x = c then matchItems items gs ge xs else none
      | [] => none) with
    | some r => some r
    | none => matchItems items gs ge s
  | Item.star cls :: items, gs, ge, s => starK cls (matchItems items gs ge) s
  | Item.plus cls :: items, gs, ge, s =>
    match s with
    | x :: xs => if cls x then starK cls (matchItems items gs ge) xs else none
    | [] => none
  | Item.groupOpen :: items, _, ge, s => matchItems items s ge s
  | Item.groupClose :: items, gs, _, s => matchItems items gs s s

/-- The successive non-overlapping leftmost matches of an expression, each
with the text of its capture group 1 (`FindAllStringSubmatch`).  The first
argument counts the bytes of the previous match still to be skipped.  No
expression of the program matches the empty string. -/
def findAllFrom (items : List Item) : Nat → GoString → List (GoString × GoString)
  | _, [] => []
  | skip + 1, _ :: cs => findAllFrom items skip cs
  | 0, c :: cs =>
    match matchItems items [] [] (c :: cs) with
    | some r =>
      ((c :: cs).take ((c :: cs).length - r.rest.length),
          r.grpStart.take (r.grpStart.length - r.grpEnd.length))
        :: findAllFrom items ((c :: cs).length - r.rest.length - 1) cs
    | none => findAllFrom items 0 cs

/-- Go `re.FindAllString(s, -1)`. -/
def findAllString (items : List Item) (s : GoString) : List GoString :=
  (findAllFrom items 0 s).map Prod.fst

/-- Go `re.FindAllStringSubmatch(s, -1)`, reduced to `match[1]` of every match. -/
def findAllSubmatch1 (items : List Item) (s : GoString) : List GoString :=
  (findAllFrom items 0 s).map Prod.snd

/-- The literal bytes of an ASCII string as items. -/
def lits (s : String) : List Item := (ascii s).map Item.byte

/-- The class `[^\s"'\\]`: any byte but tab, newline, form feed, carriage return,
space, double quote, single quote and backslash. -/
def urlChar (c : Nat) : Bool :=
  !(c == 9 || c == 10 || c == 12 || c == 13 || c == 32 || c == 34 || c == 39 || c == 92)

/-- The class `[a-z0-9-]`. -/
def hostChar (c : Nat) : Bool :=
  (97 ≤ c && c ≤ 122) || (48 ≤ c && c ≤ 57) || c == 45

/-- The class `\s`: tab, newline, form feed, carriage return, space. -/
def spaceChar (c : Nat) : Bool :=
  c == 9 || c == 10 || c == 12 || c == 13 || c == 32

/-- The class `[^"]`. -/
def notQuote (c : Nat) : Bool := !(c == 34)

/-- `https?://dms\.licdn\.com/playlist/[^\s"'\\]+\.mp4[^\s"'\\]*` -/
def playlistMp4Pattern : List Item :=
  lits "http" ++ [Item.opt 115] ++ lits "://dms.licdn.com/playlist/" ++ [Item.plus urlChar]
    ++ lits ".mp4" ++ [Item.star urlChar]

/-- `https?://dms\.licdn\.com/playlist/vid/[^\s"'\\]+` -/
def playlistVidPattern : List Item :=
  lits "http" ++ [Item.opt 115] ++ lits "://dms.licdn.com/playlist/vid/" ++ [Item.plus urlChar]

/-- `https?://[a-z0-9-]+\.licdn\.com/[^\s"'\\]*video[^\s"'\\]*\.mp4[^\s"'\\]*` -/
def licdnVideoPattern : List Item :=
  lits "http" ++ [Item.opt 115] ++ lits "://" ++ [Item.plus hostChar] ++ lits ".licdn.com/"
    ++ [Item.star urlChar] ++ lits "video" ++ [Item.star urlChar] ++ lits ".mp4"
    ++ [Item.star urlChar]

/-- The slice `patterns` of `extractVideoURLs`. -/
def patterns : List (List Item) :=
  [playlistMp4Pattern, playlistVidPattern, licdnVideoPattern]

/-- `https?:%2F%2Fdms\.licdn\.com%2F[^\s"'\\]+` -/
def encodedPattern : List Item :=
  lits "http" ++ [Item.opt 115] ++ lits ":%2F%2Fdms.licdn.com%2F" ++ [Item.plus urlChar]

/-- `"src"\s*:\s*"(https?://[^"]*licdn\.com[^"]*)"` -/
def videoSrcPattern : List Item :=
  [Item.byte 34] ++ lits "src" ++ [Item.byte 34, Item.star spaceChar, Item.byte 58,
      Item.star spaceChar, Item.byte 34, Item.groupOpen]
    ++ lits "http" ++ [Item.opt 115] ++ lits "://" ++ [Item.star notQuote] ++ lits "licdn.com"
    ++ [Item.star notQuote, Item.groupClose, Item.byte 34]

/-- `"contentUrl"\s*:\s*"(https?://[^"]+)"` -/
def contentURLPattern : List Item :=
  [Item.byte 34] ++ lits "contentUrl" ++ [Item.byte 34, Item.star spaceChar, Item.byte 58,
      Item.star spaceChar, Item.byte 34, Item.groupOpen]
    ++ lits "http" ++ [Item.opt 115] ++ lits "://"
    ++ [Item.plus notQuote, Item.groupClose, Item.byte 34]

/-! ## Library functions used by `extractVideoURLs` and `cleanURL` -/

/-- Go `strings.ReplaceAll(s, old, new)` for a non-empty `old`: the
non-overlapping occurrences of `old` are replaced from left to right.  The
first argument counts the bytes of the current occurrence still to be skipped. -/
def replaceFrom (old new : GoString) : Nat → GoString → GoString
  | _, [] => []
  | skip + 1, _ :: cs => replaceFrom old new skip cs
  | 0, c :: cs =>
    if hasPrefix (c :: cs) old then new ++ replaceFrom old new (old.length - 1) cs
    else c :: replaceFrom old new 0 cs

/-- Go `strings.ReplaceAll`. -/
def replaceAll (s old new : GoString) : GoString := replaceFrom old new 0 s

/-- Go `strings.TrimRight(s, cutset)` for an ASCII cutset: trailing bytes of the
cutset are removed. -/
def trimRight (s : GoString) (cutset : Nat → Bool) : GoString :=
  (s.reverse.dropWhile cutset).reverse

/-- Hexadecimal digit test `ishex` of package `net/url`. -/
def ishex (c : Nat) : Bool :=
  (48 ≤ c && c ≤ 57) || (97 ≤ c && c ≤ 102) || (65 ≤ c && c ≤ 70)

/-- Value of a hexadecimal digit, `unhex` of package `net/url`. -/
def unhex (c : Nat) : Nat :=
  if 48 ≤ c ∧ c ≤ 57 then c - 48
  else if 97 ≤ c ∧ c ≤ 102 then c - 97 + 10
  else if 65 ≤ c ∧ c ≤ 70 then c - 65 + 10
  else 0

/-- Go `url.QueryUnescape`: `%XX` becomes the byte `XX`, `+` becomes a space; a
`%` not followed by two hexadecimal digits is an error (`none`). -/
def queryUnescape : GoString → Option GoString
  | [] => some []
  | c :: rest =>
    if c = 37 then
      match rest with
      | a :: b :: rest2 =>
        if ishex a && ishex b then
          (queryUnescape rest2).map fun t => (unhex a * 16 + unhex b) :: t
        else none
      | _ => none
    else if c = 43 then (queryUnescape rest).map fun t => 32 :: t
    else (queryUnescape rest).map fun t => c :: t

/-! ## `cleanURL` (main.go lines 224-242) and `extractVideoURLs` (lines 148-222) -/

/-- The cutset of the `strings.TrimRight` call of `cleanURL`:
double quote, single quote, backslash, `;`, `,`, `)`, `>`, `]` and closing brace. -/
def trimCutset (c : Nat) : Bool :=
  c == 34 || c == 39 || c == 92 || c == 59 || c == 44 || c == 41 || c == 62 || c == 93
    || c == 125

/-- The literal `&amp;`. -/
def ampEntity : GoString := [38, 97, 109, 112, 59]

/-- The literal of a backslash followed by `u002F`. -/
def unicodeSlash : GoString := [92, 117, 48, 48, 50, 70]

/-- The literal of a backslash followed by `/`. -/
def escapedSlash : GoString := [92, 47]

/-- The function `cleanURL`.  Whether `url.Parse` of the standard library
accepts a string is the parameter `parseOk`; the empty result stands for a
rejected candidate. -/
def cleanURL (parseOk : GoString → Bool) (rawURL : GoString) : GoString :=
  let r1 := trimRight rawURL trimCutset
  let r2 := replaceAll r1 ampEntity [38]
  let r3 := replaceAll r2 unicodeSlash [47]
  let r4 := replaceAll r3 escapedSlash [47]
  if parseOk r4 then r4 else []

/-- The two local variables `seen` and `urls` of `extractVideoURLs`; `seen` holds
the keys that were set to `true`. -/
structure ExtractState where
  seen : List GoString
  urls : List GoString

/-- The body shared by the five loops:
`if cleaned != "" && !seen[cleaned] { seen[cleaned] = true; urls = append(urls, cleaned) }`. -/
def addURL (st : ExtractState) (cleaned : GoString) : ExtractState :=
  if cleaned ≠ [] ∧ cleaned ∉ st.seen then ⟨cleaned :: st.seen, st.urls ++ [cleaned]⟩ else st

/-- A loop `for _, m := range matches { cleaned := cleanURL(m); ... }`. -/
def runPass (parseOk : GoString → Bool) (st : ExtractState) (found : List GoString) :
    ExtractState :=
  found.foldl (fun st m => addURL st (cleanURL parseOk m)) st

/-- The loop over `patterns` applied to `text` (first and third pass). -/
def directPass (parseOk : GoString → Bool) (text : GoString) (st : ExtractState) :
    ExtractState :=
  patterns.foldl (fun st pattern => runPass parseOk st (findAllString pattern text)) st

/-- The loop over the matches of `encodedPattern` (second pass): a match that
`url.QueryUnescape` rejects is skipped. -/
def encodedPass (parseOk : GoString → Bool) (html : GoString) (st : ExtractState) :
    ExtractState :=
  (findAllString encodedPattern html).foldl
    (fun st m =>
      match queryUnescape m with
      | some decoded => addURL st (cleanURL parseOk decoded)
      | none => st) st

/-- The variable `unescaped` of the third pass. -/
def unescapeSlashes (html : GoString) : GoString :=
  replaceAll (replaceAll html unicodeSlash [47]) escapedSlash [47]

/-- The function `extractVideoURLs`. -/
def extractVideoURLs (parseOk : GoString → Bool) (html : GoString) : List GoString :=
  let st1 := directPass parseOk html ⟨[], []⟩
  let st2 := encodedPass parseOk html st1
  let st3 := directPass parseOk (unescapeSlashes html) st2
  let st4 := runPass parseOk st3 (findAllSubmatch1 videoSrcPattern html)
  let st5 := runPass parseOk st4 (findAllSubmatch1 contentURLPattern html)
  st5.urls

/-- A stand-in for `url.Parse` that accepts every string, used to evaluate the
code on inputs all of whose candidates Go's parser accepts. -/
def parseAny : GoString → Bool := fun _ => true

/-- The string `u` with every `/` written as the six bytes of a backslash
followed by `u002F`. -/
def escapeSlashes : GoString → GoString
  | [] => []
  | c :: cs => if c = 47 then unicodeSlash ++ escapeSlashes cs else c :: escapeSlashes cs

/-! ## `downloadFile` (main.go lines 341-390)

The function acts on the file system and the network.  Both are made explicit:
`World` is the state the function can change, `Env` fixes the outcome of every
call whose result the program does not control. -/

/-- The files that exist, with their content, and the HTTP requests sent so far. -/
structure World where
  files : GoString → Option GoString
  requests : List GoString

/-- An HTTP response as far as `downloadFile` reads it; `copyFailsAfter` is the
number of body bytes after which `io.Copy` fails, if it does. -/
structure Response where
  statusCode : Nat
  contentType : GoString
  body : GoString
  copyFailsAfter : Option Nat

/-- The outcomes of the library calls of `downloadFile`. -/
structure Env where
  newRequestOk : GoString → Bool
  roundTrip : GoString → Option Response
  createOk : GoString → Bool
  renameOk : GoString → GoString → Bool
  pathClean : GoString → GoString

/-- The errors `downloadFile` returns. -/
inductive DownloadError where
  | alreadyExists (filename : GoString)
  | badRequest
  | transport
  | httpStatus (code : Nat)
  | notVideo (contentType : GoString)
  | createFailed
  | copyFailed
  | renameFailed

/-- The file system with the content of `path` set to `content`. -/
def setFile (files : GoString → Option GoString) (path : GoString) (content : Option GoString) :
    GoString → Option GoString :=
  fun p => if p = path then content else files p

/-- The function `downloadFile`: the error it returns (`none` for `nil`) and the
world it leaves.  `os.Stat` succeeds exactly on a path that exists. -/
def downloadFile (env : Env) (videoURL filename : GoString) (w : World) :
    Option DownloadError × World :=
  if (w.files filename).isSome then (some (DownloadError.alreadyExists filename), w)
  else if !env.newRequestOk videoURL then (some DownloadError.badRequest, w)
  else
    let w1 : World := ⟨w.files, w.requests ++ [videoURL]⟩
    match env.roundTrip videoURL with
    | none => (some DownloadError.transport, w1)
    | some resp =>
      if resp.statusCode ≠ 200 then (some (DownloadError.httpStatus resp.statusCode), w1)
      else if resp.contentType ≠ [] ∧ !contains resp.contentType (ascii "video")
          ∧ !contains resp.contentType (ascii "octet-stream")
          ∧ !contains resp.contentType (ascii "mp4") then
        (some (DownloadError.notVideo resp.contentType), w1)
      else if !env.createOk (filename ++ ascii ".tmp") then (some DownloadError.createFailed, w1)
      else
        match resp.copyFailsAfter with
        | some _ =>
          (some DownloadError.copyFailed, ⟨setFile w1.files (filename ++ ascii ".tmp") none,
            w1.requests⟩)
        | none =>
          if env.renameOk (filename ++ ascii ".tmp") (env.pathClean filename) then
            (none, ⟨setFile (setFile w1.files (filename ++ ascii ".tmp") none)
              (env.pathClean filename) (some resp.body), w1.requests⟩)
          else
            (some DownloadError.renameFailed,
              ⟨setFile w1.files (filename ++ ascii ".tmp") (some resp.body), w1.requests⟩)

/-- The matches the loop over `patterns` visits on `text`, in order. -/
def directMatches (text : GoString) : List GoString :=
  findAllString playlistMp4Pattern text ++ findAllString playlistVidPattern text
    ++ findAllString licdnVideoPattern text

/-- The decoded matches the second pass hands to `cleanURL`, in order. -/
def decodedMatches (html : GoString) : List GoString :=
  (findAllString encodedPattern html).filterMap queryUnescape

/-- The values the variable `cleaned` takes during a run of `extractVideoURLs`,
in order (the discoveries of the five passes). -/
def candidates (parseOk : GoString → Bool) (html : GoString) : List GoString :=
  (directMatches html ++ decodedMatches html ++ directMatches (unescapeSlashes html)
    ++ findAllSubmatch1 videoSrcPattern html
    ++ findAllSubmatch1 contentURLPattern html).map (cleanURL parseOk)

/-- The invariant of the loops of `extractVideoURLs` after the candidates `p`. -/
def ExtractInv (p : List GoString) (st : ExtractState) : Prop :=
  (∀ x, x ∈ st.seen ↔ x ∈ st.urls)
    ∧ st.urls.Nodup
    ∧ (∀ x, x ∈ st.urls ↔ x ∈ p ∧ x ≠ [])
    ∧ (∀ x y, x ∈ st.urls → y ∈ st.urls →
        (st.urls.indexOf x < st.urls.indexOf y ↔ p.indexOf x < p.indexOf y))

/-! ## Theorems about `pickBestVideo` -/

theorem pickStep_eq (best u : GoString) : pickStep best u = best ∨ pickStep best u = u := by
  unfold pickStep
  split
  · exact Or.inr rfl
  · split
    · exact Or.inr rfl
    · exact Or.inl rfl

theorem foldl_pickStep_mem (l : List GoString) (b : GoString) :
    l.foldl pickStep b = b ∨ l.foldl pickStep b ∈ l := by
  induction l generalizing b with
  | nil => exact Or.inl rfl
  | cons u us ih =>
    rw [List.foldl_cons]
    rcases ih (pickStep b u) with h | h
    · rcases pickStep_eq b u with h1 | h1
      · exact Or.inl (h.trans h1)
      · exact Or.inr (by rw [h, h1]; exact List.mem_cons_self _ _)
    · exact Or.inr (List.mem_cons_of_mem _ h)

set_option maxRecDepth 100000 in
/-- C1 (code defect): on `["https://x/ab.mp4", "https://x/a-long-long-url"]` the
list holds a URL containing ".mp4", yet `pickBestVideo` returns the longer URL
without ".mp4": the length comparison of the loop is not restricted to URLs of
the same preference class.  Such a list is what `extractVideoURLs` returns for
a page naming a short ".mp4" playlist URL and a longer one without extension.
On the input of the specification, `["https://x/a", "https://x/ab.mp4"]`, the
result is `"https://x/ab.mp4"`. -/
theorem pickBestVideo_drops_mp4 :
    pickBestVideo [ascii "https://x/ab.mp4", ascii "https://x/a-long-long-url"]
        = some (ascii "https://x/a-long-long-url")
      ∧ contains (ascii "https://x/ab.mp4") dotMp4 = true
      ∧ contains (ascii "https://x/a-long-long-url") dotMp4 = false
      ∧ pickBestVideo [ascii "https://x/a", ascii "https://x/ab.mp4"]
        = some (ascii "https://x/ab.mp4")
      ∧ extractVideoURLs parseAny (ascii
          "https://dms.licdn.com/playlist/vid/a.mp4 https://dms.licdn.com/playlist/vid/abcdefgh")
        = [ascii "https://dms.licdn.com/playlist/vid/a.mp4",
            ascii "https://dms.licdn.com/playlist/vid/abcdefgh"]
      ∧ pickBestVideo [ascii "https://dms.licdn.com/playlist/vid/a.mp4",
            ascii "https://dms.licdn.com/playlist/vid/abcdefgh"]
        = some (ascii "https://dms.licdn.com/playlist/vid/abcdefgh")
      ∧ contains (ascii "https://dms.licdn.com/playlist/vid/abcdefgh") dotMp4 = false := by
  decide

set_option maxRecDepth 100000 in
/-- C2 (code defect): on `["https://x/cccccccccccccccc", "https://x/a.mp4",
"https://x/bbbbbbbbbb"]` the function `pickBestVideo` returns the third URL,
which has no ".mp4" and 20 bytes, although the first URL has no ".mp4" either
and 26 bytes: the result is not a longest URL of its preference class.  A list
of this shape is what `extractVideoURLs` returns for a page with a plain
playlist URL followed by two unicode-escaped ones. -/
theorem pickBestVideo_not_longest_of_class :
    pickBestVideo [ascii "https://x/cccccccccccccccc", ascii "https://x/a.mp4",
        ascii "https://x/bbbbbbbbbb"] = some (ascii "https://x/bbbbbbbbbb")
      ∧ contains (ascii "https://x/bbbbbbbbbb") dotMp4 = false
      ∧ contains (ascii "https://x/cccccccccccccccc") dotMp4 = false
      ∧ (ascii "https://x/bbbbbbbbbb").length = 20
      ∧ (ascii "https://x/cccccccccccccccc").length = 26
      ∧ extractVideoURLs parseAny
          (ascii "https://dms.licdn.com/playlist/vid/cccccccccccccccc " ++ escapeSlashes (ascii
            "https://dms.licdn.com/playlist/vid/a.mp4 https://dms.licdn.com/playlist/vid/bbbbbbbb"))
        = [ascii "https://dms.licdn.com/playlist/vid/cccccccccccccccc",
            ascii "https://dms.licdn.com/playlist/vid/a.mp4",
            ascii "https://dms.licdn.com/playlist/vid/bbbbbbbb"]
      ∧ pickBestVideo [ascii "https://dms.licdn.com/playlist/vid/cccccccccccccccc",
            ascii "https://dms.licdn.com/playlist/vid/a.mp4",
            ascii "https://dms.licdn.com/playlist/vid/bbbbbbbb"]
        = some (ascii "https://dms.licdn.com/playlist/vid/bbbbbbbb") := by
  decide

/-- C10: on every non-empty list of URLs `pickBestVideo` returns a result
(neither the access `urls[0]` nor the loop fails), and the URL it returns is
an element of the list. -/
theorem pickBestVideo_total_mem (urls : List GoString) (h : urls ≠ []) :
    ∃ r, pickBestVideo urls = some r ∧ r ∈ urls := by
  cases urls with
  | nil => exact absurd rfl h
  | cons u0 us =>
    refine ⟨(u0 :: us).foldl pickStep u0, rfl, ?_⟩
    rcases foldl_pickStep_mem (u0 :: us) u0 with h1 | h1
    · rw [h1]; exact List.mem_cons_self _ _
    · exact h1

theorem pickBestVideo_total_mem_witness :
    [ascii "https://x/a", ascii "https://x/ab.mp4"] ≠ []
      ∧ ∃ r, pickBestVideo [ascii "https://x/a", ascii "https://x/ab.mp4"] = some r
          ∧ r ∈ [ascii "https://x/a", ascii "https://x/ab.mp4"] :=
  ⟨by decide, pickBestVideo_total_mem _ (by decide)⟩

/-! ## Theorems about `buildFilename` -/

theorem encodeRune_ne_nil (r : Nat) : encodeRune r ≠ [] := by
  unfold encodeRune
  split_ifs <;> simp

theorem encodeRune_bytes (r : Nat) :
    (r ≤ 0x7F ∧ encodeRune r = [r]) ∨ (0x7F < r ∧ ∀ b ∈ encodeRune r, 0x80 ≤ b) := by
  unfold encodeRune
  by_cases h1 : r ≤ 0x7F
  · exact Or.inl ⟨h1, by simp [h1]⟩
  · refine Or.inr ⟨by omega, ?_⟩
    simp only [h1, if_false]
    split_ifs <;> intro b hb <;> simp at hb <;> omega

theorem decodeRune_encodeRune (r : Nat) (tail : GoString) :
    ∃ b0 bs, encodeRune r = b0 :: bs ∧
      decodeRune b0 (bs ++ tail) = (normRune r, bs.length + 1) := by
  unfold encodeRune normRune
  by_cases h1 : r ≤ 0x7F
  · refine ⟨r, [], by simp [h1], ?_⟩
    have : ¬ (0x10FFFF < r ∨ (0xD800 ≤ r ∧ r ≤ 0xDFFF)) := by omega
    simp only [this, if_false]
    unfold decodeRune
    have h2 : r < 0x80 := by omega
    simp [h2]
  · by_cases h2 : r ≤ 0x7FF
    · refine ⟨0xC0 + r / 64, [0x80 + r % 64], by simp [h1, h2], ?_⟩
      have : ¬ (0x10FFFF < r ∨ (0xD800 ≤ r ∧ r ≤ 0xDFFF)) := by omega
      simp only [this, if_false]
      unfold decodeRune
      have a1 : ¬ (0xC0 + r / 64 < 0x80) := by omega
      have a2 : ¬ (0xC0 + r / 64 < 0xC2) := by omega
      have a3 : 0xC0 + r / 64 < 0xE0 := by omega
      have a4 : 0x80 ≤ 0x80 + r % 64 ∧ 0x80 + r % 64 ≤ 0xBF := by omega
      simp only [a1, a2, a3, a4, if_true, if_false, List.cons_append, List.nil_append,
        and_self, List.length_singleton]
      congr 1
      omega
    · by_cases h3 : 0x10FFFF < r ∨ (0xD800 ≤ r ∧ r ≤ 0xDFFF)
      · refine ⟨0xEF, [0xBF, 0xBD], by simp [h1, h2, h3], ?_⟩
        simp only [h3, if_true]
        unfold decodeRune runeError
        simp
      · by_cases h4 : r ≤ 0xFFFF
        · refine ⟨0xE0 + r / 4096, [0x80 + r / 64 % 64, 0x80 + r % 64],
            by simp [h1, h2, h3, h4], ?_⟩
          simp only [h3, if_false]
          unfold decodeRune
          have a1 : ¬ (0xE0 + r / 4096 < 0x80) := by omega
          have a2 : ¬ (0xE0 + r / 4096 < 0xC2) := by omega
          have a3 : ¬ (0xE0 + r / 4096 < 0xE0) := by omega
          have a4 : 0xE0 + r / 4096 < 0xF0 := by omega
          have a5 : (if 0xE0 + r / 4096 = 0xE0 then 0xA0 else 0x80) ≤ 0x80 + r / 64 % 64
              ∧ 0x80 + r / 64 % 64 ≤ (if 0xE0 + r / 4096 = 0xED then 0x9F else 0xBF) := by
            constructor
            · split_ifs <;> omega
            · split_ifs <;> omega
          have a6 : 0x80 ≤ 0x80 + r % 64 ∧ 0x80 + r % 64 ≤ 0xBF := by omega
          simp only [a1, a2, a3, a4, a5, a6, if_true, if_false, List.cons_append,
            List.nil_append, and_self, List.length_cons, List.length_singleton,
            List.length_nil]
          congr 1
          omega
        · refine ⟨0xF0 + r / 262144,
            [0x80 + r / 4096 % 64, 0x80 + r / 64 % 64, 0x80 + r % 64],
            by simp [h1, h2, h3, h4], ?_⟩
          simp only [h3, if_false]
          unfold decodeRune
          have a1 : ¬ (0xF0 + r / 262144 < 0x80) := by omega
          have a2 : ¬ (0xF0 + r / 262144 < 0xC2) := by omega
          have a3 : ¬ (0xF0 + r / 262144 < 0xE0) := by omega
          have a4 : ¬ (0xF0 + r / 262144 < 0xF0) := by omega
          have a4' : 0xF0 + r / 262144 < 0xF5 := by omega
          have a5 : (if 0xF0 + r / 262144 = 0xF0 then 0x90 else 0x80) ≤ 0x80 + r / 4096 % 64
              ∧ 0x80 + r / 4096 % 64 ≤ (if 0xF0 + r / 262144 = 0xF4 then 0x8F else 0xBF) := by
            constructor
            · split_ifs <;> omega
            · split_ifs <;> omega
          have a6 : 0x80 ≤ 0x80 + r / 64 % 64 ∧ 0x80 + r / 64 % 64 ≤ 0xBF := by omega
          have a7 : 0x80 ≤ 0x80 + r % 64 ∧ 0x80 + r % 64 ≤ 0xBF := by omega
          simp only [a1, a2, a3, a4, a4', a5, a6, a7, if_true, if_false, List.cons_append,
            List.nil_append, and_self, List.length_cons, List.length_singleton,
            List.length_nil]
          congr 1
          omega

theorem decodeFrom_drop (n : Nat) (s : GoString) :
    decodeFrom n s = decodeFrom 0 (s.drop n) := by
  induction s generalizing n with
  | nil => cases n <;> simp [decodeFrom]
  | cons c cs ih =>
    cases n with
    | zero => simp
    | succ k => simp only [decodeFrom, List.drop_succ_cons]; exact ih k

theorem decodeFrom_cons (c : Nat) (cs : GoString) :
    decodeFrom 0 (c :: cs)
      = decodeRune c cs :: decodeFrom 0 (cs.drop ((decodeRune c cs).2 - 1)) := by
  rw [decodeFrom, decodeFrom_drop]

theorem decodeFrom_encodeRune (r : Nat) (tail : GoString) :
    decodeFrom 0 (encodeRune r ++ tail)
      = (normRune r, (encodeRune r).length) :: decodeFrom 0 tail := by
  obtain ⟨b0, bs, h1, h2⟩ := decodeRune_encodeRune r tail
  rw [h1, List.cons_append, decodeFrom_cons, h2]
  simp

theorem runes_encodeRunes (rs : List Nat) (tail : GoString) :
    runes (encodeRunes rs ++ tail) = rs.map normRune ++ runes tail := by
  induction rs with
  | nil => simp [encodeRunes]
  | cons r rs ih =>
    unfold runes at ih ⊢
    rw [encodeRunes, List.append_assoc, decodeFrom_encodeRune]
    simp [ih]

theorem decodeFrom_length_le (s : GoString) : ∀ n, (decodeFrom n s).length ≤ s.length := by
  induction s with
  | nil => intro n; cases n <;> simp [decodeFrom]
  | cons c cs ih =>
    intro n
    cases n with
    | zero =>
      simp only [decodeFrom, List.length_cons]
      exact Nat.succ_le_succ (ih _)
    | succ k =>
      simp only [decodeFrom, List.length_cons]
      exact Nat.le_succ_of_le (ih k)

theorem isUnsafe_lt (b : Nat) (h : isUnsafe b = true) : b < 0x80 := by
  simp [isUnsafe] at h
  omega

theorem encodeRune_sanitizeRune_safe (r b : Nat) (hb : b ∈ encodeRune (sanitizeRune r)) :
    isUnsafe b = false := by
  by_cases hu : isUnsafe r = true
  · have : sanitizeRune r = 95 := by simp [sanitizeRune, hu]
    rw [this] at hb
    have : b = 95 := by simpa [encodeRune] using hb
    subst this
    decide
  · have hs : sanitizeRune r = r := by simp [sanitizeRune, hu]
    rw [hs] at hb
    rcases encodeRune_bytes r with ⟨_, h2⟩ | ⟨_, h2⟩
    · rw [h2] at hb
      have : b = r := by simpa using hb
      subst this
      simpa using hu
    · have hge := h2 b hb
      cases hbu : isUnsafe b with
      | false => rfl
      | true => have := isUnsafe_lt b hbu; omega

theorem encodeRunes_sanitize_safe (rs : List Nat) (b : Nat)
    (hb : b ∈ encodeRunes (rs.map sanitizeRune)) : isUnsafe b = false := by
  induction rs with
  | nil => simp [encodeRunes] at hb
  | cons r rs ih =>
    simp only [List.map_cons, encodeRunes, List.mem_append] at hb
    rcases hb with hb | hb
    · exact encodeRune_sanitizeRune_safe r b hb
    · exact ih hb

theorem decodeRune_ascii (c : Nat) (cs : GoString) (h : c < 0x80) :
    decodeRune c cs = (c, 1) := by
  simp [decodeRune, h]

theorem decodeRune_width_pos (c : Nat) (cs : GoString) : 1 ≤ (decodeRune c cs).2 := by
  unfold decodeRune
  split_ifs <;> first | simp | (split <;> first | simp | (split_ifs <;> simp))

theorem encodeRune_decodeRune (c : Nat) (cs : GoString) (hc : 0x80 ≤ c)
    (h : ¬ ((decodeRune c cs).1 = runeError ∧ (decodeRune c cs).2 = 1)) :
    encodeRune (decodeRune c cs).1 = (c :: cs).take (decodeRune c cs).2
      ∧ 0x80 ≤ (decodeRune c cs).1
      ∧ ∀ b ∈ (c :: cs).take (decodeRune c cs).2, 0x80 ≤ b := by
  unfold decodeRune at h ⊢
  have h0 : ¬ c < 0x80 := by omega
  simp only [h0, if_false] at h ⊢
  by_cases h1 : c < 0xC2
  · simp [h1] at h
  simp only [h1, if_false] at h ⊢
  by_cases h2 : c < 0xE0
  · simp only [h2, if_true] at h ⊢
    cases cs with
    | nil => simp at h
    | cons s1 t =>
      simp only at h ⊢
      by_cases g1 : 0x80 ≤ s1 ∧ s1 ≤ 0xBF
      · simp only [g1, and_self, if_true] at h ⊢
        unfold encodeRune
        have e1 : ¬ (c % 32 * 64 + s1 % 64 ≤ 0x7F) := by omega
        have e2 : c % 32 * 64 + s1 % 64 ≤ 0x7FF := by omega
        simp only [e1, e2, if_true, if_false]
        refine ⟨?_, by omega, ?_⟩
        · simp only [List.take_succ_cons, List.take_zero]
          congr 1
          · omega
          · congr 1; omega
        · intro b hb
          simp at hb
          omega
      · simp [g1] at h
  simp only [h2, if_false] at h ⊢
  by_cases h3 : c < 0xF0
  · simp only [h3, if_true] at h ⊢
    match cs, h with
    | [], h => simp at h
    | [_], h => simp at h
    | s1 :: s2 :: t, h =>
      simp only at h ⊢
      by_cases g1 : (if c = 0xE0 then 0xA0 else 0x80) ≤ s1
          ∧ s1 ≤ (if c = 0xED then 0x9F else 0xBF)
      · simp only [g1, and_self, if_true] at h ⊢
        by_cases g2 : 0x80 ≤ s2 ∧ s2 ≤ 0xBF
        · simp only [g2, and_self, if_true] at h ⊢
          have g1a : 0x80 ≤ s1 ∧ s1 ≤ 0xBF := by
            obtain ⟨ga, gb⟩ := g1
            constructor
            · split_ifs at ga <;> omega
            · split_ifs at gb <;> omega
          have g1b : c = 0xE0 → 0xA0 ≤ s1 := by
            intro hce; obtain ⟨ga, _⟩ := g1; simpa [hce] using ga
          have g1c : c = 0xED → s1 ≤ 0x9F := by
            intro hce; obtain ⟨_, gb⟩ := g1; simpa [hce] using gb
          unfold encodeRune
          have e1 : ¬ (c % 16 * 4096 + s1 % 64 * 64 + s2 % 64 ≤ 0x7F) := by omega
          have e2 : ¬ (c % 16 * 4096 + s1 % 64 * 64 + s2 % 64 ≤ 0x7FF) := by
            by_cases hce : c = 0xE0
            · have := g1b hce; omega
            · omega
          have e3 : ¬ (0x10FFFF < c % 16 * 4096 + s1 % 64 * 64 + s2 % 64
              ∨ (0xD800 ≤ c % 16 * 4096 + s1 % 64 * 64 + s2 % 64
                ∧ c % 16 * 4096 + s1 % 64 * 64 + s2 % 64 ≤ 0xDFFF)) := by
            by_cases hce : c = 0xED
            · have := g1c hce; omega
            · omega
          have e4 : c % 16 * 4096 + s1 % 64 * 64 + s2 % 64 ≤ 0xFFFF := by omega
          simp only [e1, e2, e3, e4, if_true, if_false]
          refine ⟨?_, by omega, ?_⟩
          · simp only [List.take_succ_cons, List.take_zero]
            congr 1
            · omega
            · congr 1
              · omega
              · congr 1; omega
          · intro b hb
            simp at hb
            omega
        · simp [g2] at h
      · simp [g1] at h
  simp only [h3, if_false] at h ⊢
  by_cases h4 : c < 0xF5
  · simp only [h4, if_true] at h ⊢
    match cs, h with
    | [], h => simp at h
    | [_], h => simp at h
    | [_, _], h => simp at h
    | s1 :: s2 :: s3 :: t, h =>
      simp only at h ⊢
      by_cases g1 : (if c = 0xF0 then 0x90 else 0x80) ≤ s1
          ∧ s1 ≤ (if c = 0xF4 then 0x8F else 0xBF)
      · simp only [g1, and_self, if_true] at h ⊢
        by_cases g2 : 0x80 ≤ s2 ∧ s2 ≤ 0xBF
        · simp only [g2, and_self, if_true] at h ⊢
          by_cases g3 : 0x80 ≤ s3 ∧ s3 ≤ 0xBF
          · simp only [g3, and_self, if_true] at h ⊢
            have g1a : 0x80 ≤ s1 ∧ s1 ≤ 0xBF := by
              obtain ⟨ga, gb⟩ := g1
              constructor
              · split_ifs at ga <;> omega
              · split_ifs at gb <;> omega
            have g1b : c = 0xF0 → 0x90 ≤ s1 := by
              intro hce; obtain ⟨ga, _⟩ := g1; simpa [hce] using ga
            have g1c : c = 0xF4 → s1 ≤ 0x8F := by
              intro hce; obtain ⟨_, gb⟩ := g1; simpa [hce] using gb
            unfold encodeRune
            have e4 : ¬ (c % 8 * 262144 + s1 % 64 * 4096 + s2 % 64 * 64 + s3 % 64 ≤ 0xFFFF) := by
              by_cases hce : c = 0xF0
              · have := g1b hce; omega
              · omega
            have e1 : ¬ (c % 8 * 262144 + s1 % 64 * 4096 + s2 % 64 * 64 + s3 % 64 ≤ 0x7F) := by
              omega
            have e2 : ¬ (c % 8 * 262144 + s1 % 64 * 4096 + s2 % 64 * 64 + s3 % 64 ≤ 0x7FF) := by
              omega
            have e3 : ¬ (0x10FFFF < c % 8 * 262144 + s1 % 64 * 4096 + s2 % 64 * 64 + s3 % 64
                ∨ (0xD800 ≤ c % 8 * 262144 + s1 % 64 * 4096 + s2 % 64 * 64 + s3 % 64
                  ∧ c % 8 * 262144 + s1 % 64 * 4096 + s2 % 64 * 64 + s3 % 64 ≤ 0xDFFF)) := by
              by_cases hce : c = 0xF4
              · have := g1c hce; omega
              · omega
            simp only [e1, e2, e3, e4, if_true, if_false]
            refine ⟨?_, by omega, ?_⟩
            · simp only [List.take_succ_cons, List.take_zero]
              congr 1
              · omega
              · congr 1
                · omega
                · congr 1
                  · omega
                  · congr 1; omega
            · intro b hb
              simp at hb
              omega
          · simp [g3] at h
        · simp [g2] at h
      · simp [g1] at h
  simp [h4] at h

theorem sanitizeRune_of_ge (b : Nat) (h : 0x80 ≤ b) : sanitizeRune b = b := by
  unfold sanitizeRune
  cases hu : isUnsafe b with
  | false => simp
  | true => have := isUnsafe_lt b hu; omega

theorem sanitizeRune_le (b : Nat) (h : b < 0x80) : sanitizeRune b ≤ 0x7F := by
  unfold sanitizeRune
  split_ifs <;> omega

theorem map_sanitize_of_ge (l : GoString) (h : ∀ b ∈ l, 0x80 ≤ b) :
    l.map sanitizeRune = l := by
  induction l with
  | nil => rfl
  | cons a t ih =>
    simp only [List.map_cons]
    rw [sanitizeRune_of_ge a (h a (List.mem_cons_self _ _)),
      ih (fun b hb => h b (List.mem_cons_of_mem _ hb))]

theorem stringsMap_cons (f : Nat → Nat) (c : Nat) (cs : GoString) :
    stringsMap f (c :: cs)
      = encodeRune (f (decodeRune c cs).1)
          ++ stringsMap f (cs.drop ((decodeRune c cs).2 - 1)) := by
  unfold stringsMap runes
  rw [decodeFrom_cons]
  simp [encodeRunes]

theorem validUTF8_cons (c : Nat) (cs : GoString) :
    validUTF8 (c :: cs) = (!((decodeRune c cs).1 == runeError && (decodeRune c cs).2 == 1)
      && validUTF8 (cs.drop ((decodeRune c cs).2 - 1))) := by
  unfold validUTF8
  rw [decodeFrom_cons]
  simp

theorem stringsMap_sanitize_valid_aux (n : Nat) :
    ∀ s : GoString, s.length ≤ n → validUTF8 s = true →
      stringsMap sanitizeRune s = s.map sanitizeRune := by
  induction n with
  | zero =>
    intro s hs _
    have : s = [] := List.length_eq_zero.mp (Nat.le_zero.mp hs)
    subst this
    rfl
  | succ n ih =>
    intro s hs hv
    cases s with
    | nil => rfl
    | cons c cs =>
      rw [validUTF8_cons] at hv
      simp only [Bool.and_eq_true, Bool.not_eq_true', Bool.and_eq_false_imp, beq_iff_eq,
        beq_eq_false_iff_ne, ne_eq] at hv
      obtain ⟨hok, hrest⟩ := hv
      have hlen : (cs.drop ((decodeRune c cs).2 - 1)).length ≤ n := by
        simp only [List.length_drop, List.length_cons] at hs ⊢
        omega
      rw [stringsMap_cons, ih _ hlen hrest]
      by_cases hc : c < 0x80
      · rw [decodeRune_ascii c cs hc]
        simp only [Nat.sub_self, List.drop_zero, List.map_cons]
        have : encodeRune (sanitizeRune c) = [sanitizeRune c] := by
          have := sanitizeRune_le c hc
          simp [encodeRune, this]
        rw [this]
        rfl
      · have hc' : 0x80 ≤ c := by omega
        have hne : ¬ ((decodeRune c cs).1 = runeError ∧ (decodeRune c cs).2 = 1) := by
          intro ⟨h1, h2⟩; exact hok h1 h2
        obtain ⟨e1, e2, e3⟩ := encodeRune_decodeRune c cs hc' hne
        rw [sanitizeRune_of_ge _ e2, e1]
        have hw := decodeRune_width_pos c cs
        have hsplit : (c :: cs) = (c :: cs).take (decodeRune c cs).2
            ++ cs.drop ((decodeRune c cs).2 - 1) := by
          conv_lhs => rw [← List.take_append_drop (decodeRune c cs).2 (c :: cs)]
          congr 1
          obtain ⟨k, hk⟩ : ∃ k, (decodeRune c cs).2 = k + 1 := ⟨(decodeRune c cs).2 - 1, by omega⟩
          rw [hk]
          simp
        conv_rhs => rw [hsplit, List.map_append, map_sanitize_of_ge _ e3]

theorem stringsMap_sanitize_valid (s : GoString) (h : validUTF8 s = true) :
    stringsMap sanitizeRune s = s.map sanitizeRune :=
  stringsMap_sanitize_valid_aux s.length s (Nat.le_refl _) h

theorem map_sanitize_safe (s : GoString) (h : ∀ b ∈ s, isUnsafe b = false) :
    s.map sanitizeRune = s := by
  induction s with
  | nil => rfl
  | cons a t ih =>
    simp only [List.map_cons]
    rw [ih (fun b hb => h b (List.mem_cons_of_mem _ hb))]
    have := h a (List.mem_cons_self _ _)
    simp [sanitizeRune, this]

theorem splitByte_ne_nil (sep : Nat) (s : GoString) : splitByte sep s ≠ [] := by
  cases s with
  | nil => simp [splitByte]
  | cons c cs =>
    unfold splitByte
    split_ifs
    · simp
    · split <;> simp

theorem splitByte_sep (sep : Nat) (a b : GoString) :
    splitByte sep (a ++ sep :: b) = splitByte sep a ++ splitByte sep b := by
  induction a with
  | nil => simp [splitByte]
  | cons c cs ih =>
    rw [List.cons_append, splitByte, splitByte]
    split_ifs with h
    · rw [ih]; rfl
    · rw [ih]
      cases hs : splitByte sep cs with
      | nil => exact absurd hs (splitByte_ne_nil sep cs)
      | cons p ps => simp

theorem splitByte_of_not_mem (sep : Nat) (a : GoString) (h : sep ∉ a) :
    splitByte sep a = [a] := by
  induction a with
  | nil => rfl
  | cons c cs ih =>
    have hc : c ≠ sep := fun e => h (e ▸ List.mem_cons_self _ _)
    have hcs : sep ∉ cs := fun e => h (List.mem_cons_of_mem _ e)
    simp [splitByte, hc, ih hcs]

theorem splitByte_append_of_not_mem (sep : Nat) (a b : GoString) (h : sep ∉ a) :
    ∃ q qs, splitByte sep b = q :: qs ∧ splitByte sep (a ++ b) = (a ++ q) :: qs := by
  induction a with
  | nil =>
    cases hs : splitByte sep b with
    | nil => exact absurd hs (splitByte_ne_nil sep b)
    | cons q qs => exact ⟨q, qs, rfl, by simp [hs]⟩
  | cons c cs ih =>
    have hc : c ≠ sep := fun e => h (e ▸ List.mem_cons_self _ _)
    have hcs : sep ∉ cs := fun e => h (List.mem_cons_of_mem _ e)
    obtain ⟨q, qs, h1, h2⟩ := ih hcs
    exact ⟨q, qs, h1, by simp [splitByte, hc, h2]⟩

theorem findSlug_append (l : List GoString) (x : GoString) (xs : List GoString)
    (h : ∀ seg ∈ l, seg ≠ posts) :
    findSlug (l ++ posts :: x :: xs) = (splitByte 63 x).head? := by
  induction l with
  | nil => simp [findSlug]
  | cons a t ih =>
    have ha : a ≠ posts := h a (List.mem_cons_self _ _)
    have ht := ih (fun seg hs => h seg (List.mem_cons_of_mem _ hs))
    cases t with
    | nil => simp [findSlug, ha]
    | cons b t' => simpa [findSlug, ha] using ht

theorem not_mem_of_safe (S : GoString) (hsafe : ∀ b ∈ S, isUnsafe b = false) (c : Nat)
    (hc : isUnsafe c = true) : c ∉ S := by
  intro hm
  have := hsafe c hm
  rw [hc] at this
  exact Bool.noConfusion this

theorem slugOf_posts (P S T : GoString) (hP : ∀ seg ∈ splitByte 47 P, seg ≠ posts)
    (h47 : 47 ∉ S) (h63 : 63 ∉ S) (hT : T = [] ∨ ∃ Q, T = 63 :: Q) :
    slugOf (P ++ ascii "/posts/" ++ S ++ T) = S := by
  have e1 : ascii "/posts/" = 47 :: (posts ++ [47]) := by decide
  have e2 : P ++ ascii "/posts/" ++ S ++ T = P ++ 47 :: (posts ++ 47 :: (S ++ T)) := by
    rw [e1]; simp
  have e3 : splitByte 47 posts = [posts] := by decide
  unfold slugOf
  rw [e2, splitByte_sep, splitByte_sep, e3]
  rcases hT with hT | ⟨Q, hT⟩
  · subst hT
    rw [List.append_nil, splitByte_of_not_mem 47 S h47]
    have := findSlug_append (splitByte 47 P) S [] hP
    simp only [List.singleton_append]
    rw [this, splitByte_of_not_mem 63 S h63]
    rfl
  · subst hT
    have h47' : 47 ∉ S ++ [63] := by
      simp only [List.mem_append, List.mem_singleton, not_or]
      exact ⟨h47, by decide⟩
    obtain ⟨q, qs, _, h2⟩ := splitByte_append_of_not_mem 47 (S ++ [63]) Q h47'
    have e4 : S ++ 63 :: Q = (S ++ [63]) ++ Q := by simp
    rw [e4, h2]
    have := findSlug_append (splitByte 47 P) (S ++ [63] ++ q) qs hP
    simp only [List.singleton_append]
    rw [this]
    have e5 : S ++ [63] ++ q = S ++ 63 :: q := by simp
    rw [e5, splitByte_sep, splitByte_of_not_mem 63 S h63]
    rfl

theorem truncate80_eq_take (name : GoString) : truncate80 name = name.take 80 := by
  unfold truncate80
  split_ifs with h
  · rfl
  · rw [List.take_of_length_le (by omega)]

/-- C3 (amended): for a post URL `P + "/posts/" + S` or `P + "/posts/" + S + "?" + Q`
in which no "/"-separated segment of `P` equals "posts" and the slug `S` is at
most 80 bytes long, is valid UTF-8 and contains none of the nine unsafe bytes,
`buildFilename` returns `S + ".mp4"`. -/
theorem buildFilename_slug (P S Q : GoString)
    (hP : ∀ seg ∈ splitByte 47 P, seg ≠ posts) (hlen : S.length ≤ 80)
    (hsafe : ∀ b ∈ S, isUnsafe b = false) (hvalid : validUTF8 S = true) :
    buildFilename (P ++ ascii "/posts/" ++ S) = S ++ dotMp4
      ∧ buildFilename (P ++ ascii "/posts/" ++ S ++ ascii "?" ++ Q) = S ++ dotMp4 := by
  have h47 : 47 ∉ S := not_mem_of_safe S hsafe 47 (by decide)
  have h63 : 63 ∉ S := not_mem_of_safe S hsafe 63 (by decide)
  have hS : stringsMap sanitizeRune (truncate80 S) = S := by
    rw [truncate80_eq_take, List.take_of_length_le hlen, stringsMap_sanitize_valid S hvalid,
      map_sanitize_safe S hsafe]
  constructor
  · have := slugOf_posts P S [] hP h47 h63 (Or.inl rfl)
    rw [List.append_nil] at this
    unfold buildFilename
    rw [this, hS]
  · have e : P ++ ascii "/posts/" ++ S ++ ascii "?" ++ Q
        = P ++ ascii "/posts/" ++ S ++ (63 :: Q) := by
      have : ascii "?" = [63] := by decide
      rw [this]; simp
    have := slugOf_posts P S (63 :: Q) hP h47 h63 (Or.inr ⟨Q, rfl⟩)
    unfold buildFilename
    rw [e, this, hS]

theorem buildFilename_slug_witness :
    buildFilename (ascii "https://www.linkedin.com" ++ ascii "/posts/"
        ++ ascii "jane-doe_my-post-activity-123456")
        = ascii "jane-doe_my-post-activity-123456" ++ dotMp4
      ∧ buildFilename (ascii "https://www.linkedin.com" ++ ascii "/posts/"
        ++ ascii "jane-doe_my-post-activity-123456" ++ ascii "?" ++ ascii "utm=1")
        = ascii "jane-doe_my-post-activity-123456" ++ dotMp4 :=
  buildFilename_slug (ascii "https://www.linkedin.com")
    (ascii "jane-doe_my-post-activity-123456") (ascii "utm=1")
    (by decide) (by decide) (by decide) (by decide)

set_option maxRecDepth 100000 in
/-- C3 (counterexample): with the slug of 41 characters "é" (82 bytes, valid
UTF-8, no unsafe character) the result is the first 40 of them plus ".mp4", not the
slug plus ".mp4"; and with the slug of the single byte 0xFF, which is no valid
UTF-8, the result is the encoding of U+FFFD plus ".mp4". -/
theorem buildFilename_slug_counterexample :
    ((∀ seg ∈ splitByte 47 (ascii "https://www.linkedin.com"), seg ≠ posts)
      ∧ (runes (stringsRepeat 41 [0xC3, 0xA9])).length = 41
      ∧ (∀ b ∈ stringsRepeat 41 [0xC3, 0xA9], isUnsafe b = false)
      ∧ buildFilename (ascii "https://www.linkedin.com" ++ ascii "/posts/"
          ++ stringsRepeat 41 [0xC3, 0xA9]) = stringsRepeat 40 [0xC3, 0xA9] ++ dotMp4
      ∧ buildFilename (ascii "https://www.linkedin.com" ++ ascii "/posts/"
          ++ stringsRepeat 41 [0xC3, 0xA9]) ≠ stringsRepeat 41 [0xC3, 0xA9] ++ dotMp4)
    ∧ (([0xFF] : GoString).length = 1
      ∧ (∀ b ∈ ([0xFF] : GoString), isUnsafe b = false)
      ∧ buildFilename (ascii "https://www.linkedin.com" ++ ascii "/posts/" ++ [0xFF])
          = [0xEF, 0xBF, 0xBD] ++ dotMp4
      ∧ buildFilename (ascii "https://www.linkedin.com" ++ ascii "/posts/" ++ [0xFF])
          ≠ [0xFF] ++ dotMp4) := by
  decide

/-- C4: for every post URL the filename returned by `buildFilename` contains none
of the nine unsafe bytes and ends with ".mp4", and wherever the truncated slug
has an unsafe character the output has "_" at the same character position
(characters are the runes `strings.Map` walks over); when the truncated slug is
valid UTF-8 the byte offsets agree as well. -/
theorem buildFilename_sanitized (postURL : GoString) :
    (∀ b ∈ buildFilename postURL, isUnsafe b = false)
      ∧ dotMp4 <:+ buildFilename postURL
      ∧ (∀ (i r : Nat), (runes (truncate80 (slugOf postURL)))[i]? = some r → isUnsafe r = true →
          (runes (buildFilename postURL))[i]? = some 95)
      ∧ (validUTF8 (truncate80 (slugOf postURL)) = true →
          ∀ (i b : Nat), (truncate80 (slugOf postURL))[i]? = some b → isUnsafe b = true →
            (buildFilename postURL)[i]? = some 95) := by
  refine ⟨?_, ?_, ?_, ?_⟩
  · intro b hb
    unfold buildFilename stringsMap at hb
    rcases List.mem_append.mp hb with hb | hb
    · exact encodeRunes_sanitize_safe _ b hb
    · have hd : ∀ x ∈ dotMp4, isUnsafe x = false := by decide
      exact hd b hb
  · exact List.suffix_append _ _
  · intro i r hi hr
    unfold buildFilename stringsMap
    rw [runes_encodeRunes, List.map_map]
    have hlt : i < (runes (truncate80 (slugOf postURL))).length := by
      by_contra hge
      rw [List.getElem?_eq_none (by omega)] at hi
      exact Option.noConfusion hi
    rw [List.getElem?_append_left (by simpa using hlt), List.getElem?_map, hi]
    simp [sanitizeRune, hr, normRune]
  · intro hv i b hi hb
    unfold buildFilename
    rw [stringsMap_sanitize_valid _ hv]
    have hlt : i < (truncate80 (slugOf postURL)).length := by
      by_contra hge
      rw [List.getElem?_eq_none (by omega)] at hi
      exact Option.noConfusion hi
    rw [List.getElem?_append_left (by simpa using hlt), List.getElem?_map, hi]
    simp [sanitizeRune, hb]

theorem buildFilename_sanitized_witness :
    (∀ b ∈ buildFilename (ascii "https://www.linkedin.com/posts/a:b*c?utm=1"),
        isUnsafe b = false)
      ∧ dotMp4 <:+ buildFilename (ascii "https://www.linkedin.com/posts/a:b*c?utm=1")
      ∧ (runes (buildFilename (ascii "https://www.linkedin.com/posts/a:b*c?utm=1")))[1]?
          = some 95
      ∧ (buildFilename (ascii "https://www.linkedin.com/posts/a:b*c?utm=1"))[3]? = some 95 :=
  have h := buildFilename_sanitized (ascii "https://www.linkedin.com/posts/a:b*c?utm=1")
  ⟨h.1, h.2.1, h.2.2.1 1 58 (by decide) (by decide),
    h.2.2.2 (by decide) 3 42 (by decide) (by decide)⟩

set_option maxRecDepth 100000 in
/-- C5 (counterexample): the slug of 79 letters "a", the character "é" and the
letter "b" has 81 characters in 82 bytes.  The filename without ".mp4" is 79
letters "a" followed by the three bytes of U+FFFD: it is 82 bytes long, and it is
neither the sanitized first 80 characters of the slug (which end in "é") nor its
first 80 bytes with the unsafe ones replaced (which end in the byte 0xC3). -/
theorem buildFilename_truncation_counterexample :
    slugOf (ascii "https://www.linkedin.com/posts/" ++ stringsRepeat 79 [97] ++ [0xC3, 0xA9, 98])
        = stringsRepeat 79 [97] ++ [0xC3, 0xA9, 98]
      ∧ (runes (stringsRepeat 79 [97] ++ [0xC3, 0xA9, 98])).length = 81
      ∧ (stringsRepeat 79 [97] ++ [0xC3, 0xA9, 98]).length = 82
      ∧ buildFilename
          (ascii "https://www.linkedin.com/posts/" ++ stringsRepeat 79 [97] ++ [0xC3, 0xA9, 98])
        = (stringsRepeat 79 [97] ++ [0xEF, 0xBF, 0xBD]) ++ dotMp4
      ∧ (stringsRepeat 79 [97] ++ [0xEF, 0xBF, 0xBD]).length = 82
      ∧ encodeRunes (((runes (stringsRepeat 79 [97] ++ [0xC3, 0xA9, 98])).take 80).map
          sanitizeRune) = stringsRepeat 79 [97] ++ [0xC3, 0xA9]
      ∧ ((stringsRepeat 79 [97] ++ [0xC3, 0xA9, 98]).take 80).map sanitizeRune
        = stringsRepeat 79 [97] ++ [0xC3]
      ∧ ¬ (stringsRepeat 79 [97] ++ [0xEF, 0xBF, 0xBD]).length ≤ 80
      ∧ stringsRepeat 79 [97] ++ [0xEF, 0xBF, 0xBD] ≠ stringsRepeat 79 [97] ++ [0xC3, 0xA9]
      ∧ stringsRepeat 79 [97] ++ [0xEF, 0xBF, 0xBD] ≠ stringsRepeat 79 [97] ++ [0xC3] := by
  decide

/-- C5 (amended): for every post URL the filename without its ".mp4" suffix has at
most 80 characters (runes); when the first 80 bytes of the slug are valid UTF-8
it is at most 80 bytes long and is exactly the first 80 bytes of the slug (the
whole slug when that is shorter) with every unsafe byte replaced by "_". -/
theorem buildFilename_truncation (postURL stem : GoString)
    (h : buildFilename postURL = stem ++ dotMp4) :
    (runes stem).length ≤ 80
      ∧ (validUTF8 ((slugOf postURL).take 80) = true →
          stem = ((slugOf postURL).take 80).map sanitizeRune ∧ stem.length ≤ 80) := by
  have hstem : stem = stringsMap sanitizeRune (truncate80 (slugOf postURL)) := by
    unfold buildFilename at h
    exact (List.append_cancel_right h).symm
  rw [truncate80_eq_take] at hstem
  constructor
  · rw [hstem]
    unfold stringsMap
    have := runes_encodeRunes ((runes ((slugOf postURL).take 80)).map sanitizeRune) []
    rw [List.append_nil] at this
    rw [this]
    simp only [List.length_map, List.length_append, runes, decodeFrom, List.length_nil,
      List.map_nil, Nat.add_zero]
    have h1 := decodeFrom_length_le ((slugOf postURL).take 80) 0
    have h2 : ((slugOf postURL).take 80).length ≤ 80 := by simp
    omega
  · intro hv
    rw [stringsMap_sanitize_valid _ hv] at hstem
    refine ⟨hstem, ?_⟩
    rw [hstem]
    simp

set_option maxRecDepth 100000 in
theorem buildFilename_truncation_witness :
    (runes (stringsRepeat 80 [97])).length ≤ 80
      ∧ stringsRepeat 80 [97]
        = ((slugOf (ascii "https://www.linkedin.com/posts/" ++ stringsRepeat 90 [97])).take
            80).map sanitizeRune
      ∧ (stringsRepeat 80 [97]).length ≤ 80 :=
  have h := buildFilename_truncation
    (ascii "https://www.linkedin.com/posts/" ++ stringsRepeat 90 [97])
    (stringsRepeat 80 [97]) (by decide)
  ⟨h.1, h.2 (by decide)⟩

/-! ## Theorems about `downloadFile` -/

/-- C9: when a file exists at the target name, `downloadFile` returns an error for
every video URL and leaves the world as it was: the existing file keeps its
content, the file `<name>.tmp` is as before (none is created) and the list of
HTTP requests is unchanged (none is issued). -/
theorem downloadFile_existing (env : Env) (videoURL filename content : GoString) (w : World)
    (h : w.files filename = some content) :
    downloadFile env videoURL filename w = (some (DownloadError.alreadyExists filename), w)
      ∧ (downloadFile env videoURL filename w).2.files filename = some content
      ∧ (downloadFile env videoURL filename w).2.files (filename ++ ascii ".tmp")
          = w.files (filename ++ ascii ".tmp")
      ∧ (downloadFile env videoURL filename w).2.requests = w.requests := by
  have hd : downloadFile env videoURL filename w
      = (some (DownloadError.alreadyExists filename), w) := by
    unfold downloadFile
    simp [h]
  rw [hd]
  exact ⟨rfl, h, rfl, rfl⟩

theorem downloadFile_existing_witness :
    (fun p => if p = ascii "a.mp4" then some (ascii "old") else none : GoString → Option GoString)
        (ascii "a.mp4") = some (ascii "old")
      ∧ downloadFile ⟨fun _ => true, fun _ => none, fun _ => true, fun _ _ => true, id⟩
          (ascii "https://x/v.mp4") (ascii "a.mp4")
          ⟨fun p => if p = ascii "a.mp4" then some (ascii "old") else none, []⟩
        = (some (DownloadError.alreadyExists (ascii "a.mp4")),
            ⟨fun p => if p = ascii "a.mp4" then some (ascii "old") else none, []⟩) :=
  ⟨by decide,
    (downloadFile_existing ⟨fun _ => true, fun _ => none, fun _ => true, fun _ _ => true, id⟩
      (ascii "https://x/v.mp4") (ascii "a.mp4") (ascii "old")
      ⟨fun p => if p = ascii "a.mp4" then some (ascii "old") else none, []⟩ (by decide)).1⟩

/-! ## Theorems about `extractVideoURLs` -/

theorem runPass_eq_foldl (parseOk : GoString → Bool) (st : ExtractState) (l : List GoString) :
    runPass parseOk st l = (l.map (cleanURL parseOk)).foldl addURL st := by
  unfold runPass
  rw [List.foldl_map]

theorem directPass_eq (parseOk : GoString → Bool) (text : GoString) (st : ExtractState) :
    directPass parseOk text st
      = ((directMatches text).map (cleanURL parseOk)).foldl addURL st := by
  simp [directPass, patterns, directMatches, runPass_eq_foldl, List.foldl_append]

theorem encodedPass_eq (parseOk : GoString → Bool) (html : GoString) (st : ExtractState) :
    encodedPass parseOk html st
      = ((decodedMatches html).map (cleanURL parseOk)).foldl addURL st := by
  unfold encodedPass decodedMatches
  generalize findAllString encodedPattern html = l
  induction l generalizing st with
  | nil => rfl
  | cons m ms ih =>
    rw [List.foldl_cons, ih]
    cases hq : queryUnescape m with
    | none => simp [List.filterMap_cons, hq]
    | some d => simp [List.filterMap_cons, hq]

theorem extractVideoURLs_eq (parseOk : GoString → Bool) (html : GoString) :
    extractVideoURLs parseOk html
      = ((candidates parseOk html).foldl addURL ⟨[], []⟩).urls := by
  simp [extractVideoURLs, candidates, directPass_eq, encodedPass_eq, runPass_eq_foldl,
    List.foldl_append]

theorem goString_beq_inst : (List.instBEq : BEq GoString) = instBEqOfDecidableEq := by
  unfold List.instBEq instBEqOfDecidableEq
  congr 1
  funext a b
  rw [Bool.eq_iff_iff]
  have h : (a == b) = true ↔ a = b := beq_iff_eq
  rw [decide_eq_true_iff]
  exact h

theorem indexOf_append_mem (l₁ l₂ : List GoString) (a : GoString) (h : a ∈ l₁) :
    (l₁ ++ l₂).indexOf a = l₁.indexOf a := by
  rw [goString_beq_inst]
  exact List.indexOf_append_of_mem h

theorem indexOf_append_not_mem (l₁ l₂ : List GoString) (a : GoString) (h : a ∉ l₁) :
    (l₁ ++ l₂).indexOf a = l₁.length + l₂.indexOf a := by
  rw [goString_beq_inst]
  exact List.indexOf_append_of_not_mem h

theorem indexOf_lt_length_mem (l : List GoString) (a : GoString) (h : a ∈ l) :
    l.indexOf a < l.length := by
  rw [goString_beq_inst]
  exact List.indexOf_lt_length.mpr h

theorem indexOf_singleton_self (a : GoString) : [a].indexOf a = 0 := by
  rw [goString_beq_inst]
  exact List.indexOf_cons_self a []

theorem extractInv_step (p : List GoString) (st : ExtractState) (c : GoString)
    (h : ExtractInv p st) : ExtractInv (p ++ [c]) (addURL st c) := by
  obtain ⟨hs, hn, hm, ho⟩ := h
  unfold addURL
  by_cases hc : c ≠ [] ∧ c ∉ st.seen
  · rw [if_pos hc]
    obtain ⟨hc1, hc2⟩ := hc
    have hcu : c ∉ st.urls := fun hx => hc2 ((hs c).mpr hx)
    have hcp : c ∉ p := fun hx => hcu ((hm c).mpr ⟨hx, hc1⟩)
    refine ⟨?_, ?_, ?_, ?_⟩
    · intro x
      simp only [List.mem_cons, List.mem_append, List.mem_singleton, hs x]
      tauto
    · exact List.Nodup.append hn (List.nodup_singleton c)
        (by
          intro a ha hb
          rw [List.mem_singleton] at hb
          exact hcu (hb ▸ ha))
    · intro x
      simp only [List.mem_append, List.mem_singleton, hm x]
      constructor
      · rintro (⟨h1, h2⟩ | h1)
        · exact ⟨Or.inl h1, h2⟩
        · exact ⟨Or.inr h1, h1 ▸ hc1⟩
      · rintro ⟨h1 | h1, h2⟩
        · exact Or.inl ⟨h1, h2⟩
        · exact Or.inr h1
    · intro x y hx hy
      simp only [List.mem_append, List.mem_singleton] at hx hy
      have key : ∀ z, z ∈ st.urls →
          (st.urls ++ [c]).indexOf z = st.urls.indexOf z
            ∧ (p ++ [c]).indexOf z = p.indexOf z
            ∧ st.urls.indexOf z < st.urls.length ∧ p.indexOf z < p.length := by
        intro z hz
        have hzp : z ∈ p := ((hm z).mp hz).1
        exact ⟨indexOf_append_mem _ _ _ hz, indexOf_append_mem _ _ _ hzp,
          indexOf_lt_length_mem _ _ hz, indexOf_lt_length_mem _ _ hzp⟩
      have keyc : (st.urls ++ [c]).indexOf c = st.urls.length
          ∧ (p ++ [c]).indexOf c = p.length := by
        rw [indexOf_append_not_mem _ _ _ hcu, indexOf_append_not_mem _ _ _ hcp,
          indexOf_singleton_self]
        simp
      rcases hx with hx | hx <;> rcases hy with hy | hy
      · obtain ⟨a1, a2, _, _⟩ := key x hx
        obtain ⟨b1, b2, _, _⟩ := key y hy
        rw [a1, a2, b1, b2]
        exact ho x y hx hy
      · obtain ⟨a1, a2, a3, a4⟩ := key x hx
        subst hy
        rw [a1, a2, keyc.1, keyc.2]
        exact ⟨fun _ => a4, fun _ => a3⟩
      · obtain ⟨b1, b2, b3, b4⟩ := key y hy
        subst hx
        rw [b1, b2, keyc.1, keyc.2]
        constructor <;> intro hlt <;> omega
      · subst hx; subst hy
        simp
  · rw [if_neg hc]
    have hc' : c = [] ∨ c ∈ p := by
      by_cases h1 : c = []
      · exact Or.inl h1
      · right
        have : c ∈ st.seen := by
          by_contra h2
          exact hc ⟨h1, h2⟩
        exact ((hm c).mp ((hs c).mp this)).1
    refine ⟨hs, hn, ?_, ?_⟩
    · intro x
      rw [hm x]
      simp only [List.mem_append, List.mem_singleton]
      constructor
      · rintro ⟨h1, h2⟩
        exact ⟨Or.inl h1, h2⟩
      · rintro ⟨h1 | h1, h2⟩
        · exact ⟨h1, h2⟩
        · rcases hc' with h3 | h3
          · exact absurd (h1.trans h3) h2
          · exact ⟨h1 ▸ h3, h2⟩
    · intro x y hx hy
      rw [indexOf_append_mem _ _ _ ((hm x).mp hx).1,
        indexOf_append_mem _ _ _ ((hm y).mp hy).1]
      exact ho x y hx hy

theorem extractInv_foldl (l p : List GoString) (st : ExtractState) (h : ExtractInv p st) :
    ExtractInv (p ++ l) (l.foldl addURL st) := by
  induction l generalizing p st with
  | nil => simpa using h
  | cons c cs ih =>
    have := ih (p ++ [c]) (addURL st c) (extractInv_step p st c h)
    simpa using this

theorem extractInv_init : ExtractInv [] ⟨[], []⟩ := by
  refine ⟨by simp, by simp, by simp, by simp⟩

theorem extractVideoURLs_mem_iff (parseOk : GoString → Bool) (html x : GoString) :
    x ∈ extractVideoURLs parseOk html ↔ x ∈ candidates parseOk html ∧ x ≠ [] := by
  have h := extractInv_foldl (candidates parseOk html) [] ⟨[], []⟩ extractInv_init
  rw [List.nil_append] at h
  rw [extractVideoURLs_eq]
  exact h.2.2.1 x

/-- C6: for every HTML input the list returned by `extractVideoURLs` has no string
twice and never holds the empty string; it holds exactly the non-empty
candidates discovered by the passes, ordered by first discovery. -/
theorem extractVideoURLs_dedup (parseOk : GoString → Bool) (html : GoString) :
    (extractVideoURLs parseOk html).Nodup
      ∧ [] ∉ extractVideoURLs parseOk html
      ∧ (∀ x, x ∈ extractVideoURLs parseOk html ↔ x ∈ candidates parseOk html ∧ x ≠ [])
      ∧ (∀ x y, x ∈ extractVideoURLs parseOk html → y ∈ extractVideoURLs parseOk html →
          ((extractVideoURLs parseOk html).indexOf x < (extractVideoURLs parseOk html).indexOf y
            ↔ (candidates parseOk html).indexOf x < (candidates parseOk html).indexOf y)) := by
  have h := extractInv_foldl (candidates parseOk html) [] ⟨[], []⟩ extractInv_init
  rw [List.nil_append] at h
  rw [extractVideoURLs_eq]
  obtain ⟨_, hn, hm, ho⟩ := h
  refine ⟨hn, ?_, hm, ho⟩
  intro he
  exact ((hm []).mp he).2 rfl

set_option maxRecDepth 100000 in
theorem extractVideoURLs_dedup_witness :
    extractVideoURLs parseAny (ascii
        "a https://dms.licdn.com/playlist/vid/abc b https:%2F%2Fdms.licdn.com%2Fplaylist%2Fvid%2Fabc")
        = [ascii "https://dms.licdn.com/playlist/vid/abc"]
      ∧ (extractVideoURLs parseAny (ascii
        "a https://dms.licdn.com/playlist/vid/abc b https:%2F%2Fdms.licdn.com%2Fplaylist%2Fvid%2Fabc")).Nodup :=
  ⟨by decide, (extractVideoURLs_dedup parseAny _).1⟩

/-! ### The matcher -/

theorem starK_rest_suffix (cls : Nat → Bool) (k : GoString → Option MatchResult)
    (hk : ∀ t r, k t = some r → r.rest <:+ t) :
    ∀ s r, starK cls k s = some r → r.rest <:+ s := by
  intro s
  induction s with
  | nil => intro r h; exact hk [] r h
  | cons c cs ih =>
    intro r h
    unfold starK at h
    split_ifs at h with hc
    · cases hs : starK cls k cs with
      | some r' =>
        rw [hs] at h
        simp only [Option.some.injEq] at h
        subst h
        exact (ih r' hs).trans (List.suffix_cons c cs)
      | none =>
        rw [hs] at h
        exact hk _ r h
    · exact hk _ r h

theorem matchItems_opt (c : Nat) (items : List Item) (gs ge s : GoString) (r : MatchResult)
    (h : matchItems (Item.opt c :: items) gs ge s = some r) :
    (∃ xs, s = c :: xs ∧ matchItems items gs ge xs = some r)
      ∨ matchItems items gs ge s = some r := by
  cases s with
  | nil =>
    simp only [matchItems] at h
    exact Or.inr h
  | cons x xs =>
    simp only [matchItems] at h
    by_cases hx : x = c
    · subst hx
      simp only [if_true] at h
      cases hm : matchItems items gs ge xs with
      | some r' =>
        rw [hm] at h
        simp only [Option.some.injEq] at h
        subst h
        exact Or.inl ⟨xs, rfl, hm⟩
      | none =>
        rw [hm] at h
        exact Or.inr h
    · simp only [hx, if_false] at h
      exact Or.inr h

theorem matchItems_rest_suffix (items : List Item) :
    ∀ gs ge s r, matchItems items gs ge s = some r → r.rest <:+ s := by
  induction items with
  | nil =>
    intro gs ge s r h
    simp only [matchItems, Option.some.injEq] at h
    subst h
    exact List.suffix_refl s
  | cons it items ih =>
    intro gs ge s r h
    cases it with
    | byte c =>
      cases s with
      | nil => simp [matchItems] at h
      | cons x xs =>
        simp only [matchItems] at h
        split_ifs at h
        exact (ih gs ge xs r h).trans (List.suffix_cons x xs)
    | opt c =>
      rcases matchItems_opt c items gs ge s r h with ⟨xs, h1, h2⟩ | h2
      · rw [h1]
        exact (ih gs ge xs r h2).trans (List.suffix_cons c xs)
      · exact ih gs ge s r h2
    | star cls =>
      simp only [matchItems] at h
      exact starK_rest_suffix cls _ (ih gs ge) s r h
    | plus cls =>
      cases s with
      | nil => simp [matchItems] at h
      | cons x xs =>
        simp only [matchItems] at h
        split_ifs at h
        exact (starK_rest_suffix cls _ (ih gs ge) xs r h).trans (List.suffix_cons x xs)
    | groupOpen =>
      simp only [matchItems] at h
      exact ih _ _ s r h
    | groupClose =>
      simp only [matchItems] at h
      exact ih _ _ s r h

theorem matchItems_bytes (p : GoString) (items : List Item) :
    ∀ gs ge s r, matchItems (p.map Item.byte ++ items) gs ge s = some r →
      ∃ t, s = p ++ t ∧ matchItems items gs ge t = some r := by
  induction p with
  | nil => intro gs ge s r h; exact ⟨s, rfl, h⟩
  | cons c cs ih =>
    intro gs ge s r h
    cases s with
    | nil => simp [matchItems] at h
    | cons x xs =>
      simp only [List.map_cons, List.cons_append, matchItems] at h
      split_ifs at h with hx
      obtain ⟨t, h1, h2⟩ := ih gs ge xs r h
      exact ⟨t, by rw [hx, h1]; rfl, h2⟩

theorem findAllFrom_mem (items : List Item) (x : GoString × GoString) :
    ∀ s n, x ∈ findAllFrom items n s →
      ∃ t r, t <:+ s ∧ matchItems items [] [] t = some r
        ∧ x.1 = t.take (t.length - r.rest.length) := by
  intro s
  induction s with
  | nil => intro n h; cases n <;> simp [findAllFrom] at h
  | cons c cs ih =>
    intro n h
    cases n with
    | succ k =>
      simp only [findAllFrom] at h
      obtain ⟨t, r, h1, h2, h3⟩ := ih k h
      exact ⟨t, r, h1.trans (List.suffix_cons c cs), h2, h3⟩
    | zero =>
      simp only [findAllFrom] at h
      cases hm : matchItems items [] [] (c :: cs) with
      | none =>
        rw [hm] at h
        obtain ⟨t, r, h1, h2, h3⟩ := ih 0 h
        exact ⟨t, r, h1.trans (List.suffix_cons c cs), h2, h3⟩
      | some r0 =>
        rw [hm] at h
        simp only [List.mem_cons] at h
        rcases h with h | h
        · exact ⟨c :: cs, r0, List.suffix_refl _, hm, by rw [h]⟩
        · obtain ⟨t, r, h1, h2, h3⟩ := ih _ h
          exact ⟨t, r, h1.trans (List.suffix_cons c cs), h2, h3⟩

theorem take_of_suffix_append (p t rest : GoString) (h : rest <:+ t) :
    (p ++ t).take ((p ++ t).length - rest.length) = p ++ t.take (t.length - rest.length) := by
  have hl : rest.length ≤ t.length := h.length_le
  rw [List.take_append_eq_append_take]
  have e1 : (p ++ t).length - rest.length - p.length = t.length - rest.length := by
    simp only [List.length_append]; omega
  have e2 : p.length ≤ (p ++ t).length - rest.length := by
    simp only [List.length_append]; omega
  rw [e1, List.take_of_length_le e2]

theorem encodedPattern_shape (t : GoString) (r : MatchResult)
    (h : matchItems encodedPattern [] [] t = some r) :
    ∃ t', (t = ascii "http:%2F%2Fdms.licdn.com%2F" ++ t'
        ∨ t = ascii "https:%2F%2Fdms.licdn.com%2F" ++ t') ∧ r.rest <:+ t' := by
  have e : encodedPattern = (ascii "http").map Item.byte ++ (Item.opt 115 ::
      ((ascii ":%2F%2Fdms.licdn.com%2F").map Item.byte ++ [Item.plus urlChar])) := by
    simp [encodedPattern, lits]
  rw [e] at h
  obtain ⟨t1, h1, h2⟩ := matchItems_bytes _ _ _ _ _ _ h
  have tail : ∀ u, matchItems ((ascii ":%2F%2Fdms.licdn.com%2F").map Item.byte
      ++ [Item.plus urlChar]) [] [] u = some r →
      ∃ t', u = ascii ":%2F%2Fdms.licdn.com%2F" ++ t' ∧ r.rest <:+ t' := by
    intro u hu
    obtain ⟨t', h3, h4⟩ := matchItems_bytes _ _ _ _ _ _ hu
    exact ⟨t', h3, matchItems_rest_suffix _ _ _ _ _ h4⟩
  have e1 : ascii "http:%2F%2Fdms.licdn.com%2F"
      = ascii "http" ++ ascii ":%2F%2Fdms.licdn.com%2F" := by decide
  have e2 : ascii "https:%2F%2Fdms.licdn.com%2F"
      = ascii "http" ++ 115 :: ascii ":%2F%2Fdms.licdn.com%2F" := by decide
  rcases matchItems_opt _ _ _ _ _ _ h2 with ⟨xs, h3, h4⟩ | h4
  · obtain ⟨t', h5, h6⟩ := tail _ h4
    exact ⟨t', Or.inr (by rw [h1, h3, h5, e2]; simp), h6⟩
  · obtain ⟨t', h5, h6⟩ := tail _ h4
    exact ⟨t', Or.inl (by rw [h1, h5, e1]; simp), h6⟩

theorem findAllString_encoded_shape (html m : GoString)
    (h : m ∈ findAllString encodedPattern html) :
    ∃ x, m = ascii "http:%2F%2Fdms.licdn.com%2F" ++ x
      ∨ m = ascii "https:%2F%2Fdms.licdn.com%2F" ++ x := by
  unfold findAllString at h
  obtain ⟨⟨m', g⟩, hmem, hm⟩ := List.mem_map.mp h
  simp only at hm
  subst hm
  obtain ⟨t, r, _, h2, h3⟩ := findAllFrom_mem encodedPattern (m', g) html 0 hmem
  obtain ⟨t', h4, h5⟩ := encodedPattern_shape t r h2
  simp only at h3
  rcases h4 with h4 | h4
  · exact ⟨_, Or.inl (by rw [h3, h4, take_of_suffix_append _ _ _ h5])⟩
  · exact ⟨_, Or.inr (by rw [h3, h4, take_of_suffix_append _ _ _ h5])⟩

/-! ### The library functions of `cleanURL` -/

theorem hasPrefix_append (p s : GoString) : hasPrefix (p ++ s) p = true := by
  induction p with
  | nil => cases s <;> rfl
  | cons c cs ih => simp [hasPrefix, ih]

theorem hasPrefix_cons_ne (c o : Nat) (cs os : GoString) (h : c ≠ o) :
    hasPrefix (c :: cs) (o :: os) = false := by
  simp [hasPrefix, h]

theorem replaceFrom_append_of_not_mem (old new a b : GoString) (o : Nat) (os : GoString)
    (hold : old = o :: os) (h : o ∉ a) :
    replaceFrom old new 0 (a ++ b) = a ++ replaceFrom old new 0 b := by
  induction a with
  | nil => rfl
  | cons c cs ih =>
    have hc : c ≠ o := fun e => h (e ▸ List.mem_cons_self _ _)
    have hcs : o ∉ cs := fun e => h (List.mem_cons_of_mem _ e)
    rw [List.cons_append, replaceFrom, hold, hasPrefix_cons_ne c o _ os hc]
    simp only [Bool.false_eq_true, if_false, List.cons_append]
    rw [← hold, ih hcs]

theorem replaceAll_append_of_not_mem (old new a b : GoString) (o : Nat) (os : GoString)
    (hold : old = o :: os) (h : o ∉ a) :
    replaceAll (a ++ b) old new = a ++ replaceAll b old new :=
  replaceFrom_append_of_not_mem old new a b o os hold h

theorem dropWhile_append_stop (cut : Nat → Bool) (c : Nat) (hc : cut c = false)
    (l1 l2 : GoString) : ∃ l, List.dropWhile cut (l1 ++ c :: l2) = l ++ c :: l2 := by
  induction l1 with
  | nil => exact ⟨[], by simp [List.dropWhile, hc]⟩
  | cons x xs ih =>
    obtain ⟨l, hl⟩ := ih
    by_cases hx : cut x = true
    · exact ⟨l, by simp [List.dropWhile, hx, hl]⟩
    · exact ⟨x :: xs, by simp [List.dropWhile, hx]⟩

theorem trimRight_append (cut : Nat → Bool) (a b : GoString) (c : Nat) (hc : cut c = false) :
    ∃ b', trimRight (a ++ c :: b) cut = a ++ c :: b' := by
  unfold trimRight
  have e : (a ++ c :: b).reverse = b.reverse ++ c :: a.reverse := by simp
  obtain ⟨l, hl⟩ := dropWhile_append_stop cut c hc b.reverse a.reverse
  rw [e, hl]
  exact ⟨l.reverse, by simp⟩

theorem cleanURL_keeps_head (parseOk : GoString → Bool) (a y : GoString) (c : Nat)
    (hc : trimCutset c = false) (h38 : 38 ∉ a ++ [c]) (h92 : 92 ∉ a ++ [c])
    (hne : cleanURL parseOk (a ++ c :: y) ≠ []) :
    ∃ z, cleanURL parseOk (a ++ c :: y) = a ++ c :: z := by
  obtain ⟨b', hb⟩ := trimRight_append trimCutset a y c hc
  have e : ∀ t, a ++ c :: t = (a ++ [c]) ++ t := by intro t; simp
  unfold cleanURL at hne ⊢
  simp only at hne ⊢
  rw [hb, e b', replaceAll_append_of_not_mem ampEntity [38] _ _ 38 _ rfl h38,
    replaceAll_append_of_not_mem unicodeSlash [47] _ _ 92 _ rfl h92,
    replaceAll_append_of_not_mem escapedSlash [47] _ _ 92 _ rfl h92] at hne ⊢
  split_ifs at hne ⊢ with hp
  · exact ⟨_, by rw [List.append_assoc]; rfl⟩
  · exact absurd rfl hne

theorem queryUnescape_http (x d : GoString)
    (h : queryUnescape (ascii "http:%2F%2Fdms.licdn.com%2F" ++ x) = some d) :
    ∃ y, d = ascii "http://dms.licdn.com" ++ 47 :: y := by
  have e : ascii "http:%2F%2Fdms.licdn.com%2F" = [104, 116, 116, 112, 58, 37, 50, 70, 37, 50, 70,
      100, 109, 115, 46, 108, 105, 99, 100, 110, 46, 99, 111, 109, 37, 50, 70] := by decide
  have e' : ascii "http://dms.licdn.com" = [104, 116, 116, 112, 58, 47, 47,
      100, 109, 115, 46, 108, 105, 99, 100, 110, 46, 99, 111, 109] := by decide
  rw [e] at h
  rw [e']
  simp [queryUnescape, ishex, unhex] at h
  obtain ⟨y, _, hy⟩ := h
  exact ⟨y, by rw [← hy]; rfl⟩

theorem queryUnescape_https (x d : GoString)
    (h : queryUnescape (ascii "https:%2F%2Fdms.licdn.com%2F" ++ x) = some d) :
    ∃ y, d = ascii "https://dms.licdn.com" ++ 47 :: y := by
  have e : ascii "https:%2F%2Fdms.licdn.com%2F" = [104, 116, 116, 112, 115, 58, 37, 50, 70, 37,
      50, 70, 100, 109, 115, 46, 108, 105, 99, 100, 110, 46, 99, 111, 109, 37, 50, 70] := by
    decide
  have e' : ascii "https://dms.licdn.com" = [104, 116, 116, 112, 115, 58, 47, 47,
      100, 109, 115, 46, 108, 105, 99, 100, 110, 46, 99, 111, 109] := by decide
  rw [e] at h
  rw [e']
  simp [queryUnescape, ishex, unhex] at h
  obtain ⟨y, _, hy⟩ := h
  exact ⟨y, by rw [← hy]; rfl⟩

set_option maxRecDepth 100000 in
/-- C7 (counterexample): on the HTML `https:%2F%2Fdms.licdn.com%2Ffoo` the direct
pass, the slash-unescaped pass, the "src" pass and the "contentUrl" pass find
nothing, the result is the single URL `https://dms.licdn.com/foo`, and no
direct pattern has a match in that URL. -/
theorem encodedPass_counterexample :
    directMatches (ascii "https:%2F%2Fdms.licdn.com%2Ffoo") = []
      ∧ directMatches (unescapeSlashes (ascii "https:%2F%2Fdms.licdn.com%2Ffoo")) = []
      ∧ findAllSubmatch1 videoSrcPattern (ascii "https:%2F%2Fdms.licdn.com%2Ffoo") = []
      ∧ findAllSubmatch1 contentURLPattern (ascii "https:%2F%2Fdms.licdn.com%2Ffoo") = []
      ∧ extractVideoURLs parseAny (ascii "https:%2F%2Fdms.licdn.com%2Ffoo")
          = [ascii "https://dms.licdn.com/foo"]
      ∧ directMatches (ascii "https://dms.licdn.com/foo") = [] := by
  decide

/-- C7 (amended): when the direct, the slash-unescaped, the "src" and the
"contentUrl" pass find nothing, every URL returned by `extractVideoURLs` is the
normalised (`cleanURL`) percent-decoding of a match of the encoded pattern and
begins with `http://dms.licdn.com/` or `https://dms.licdn.com/`. -/
theorem encodedPass_only (parseOk : GoString → Bool) (html u : GoString)
    (h1 : directMatches html = []) (h3 : directMatches (unescapeSlashes html) = [])
    (h4 : findAllSubmatch1 videoSrcPattern html = [])
    (h5 : findAllSubmatch1 contentURLPattern html = [])
    (hu : u ∈ extractVideoURLs parseOk html) :
    ∃ m d, m ∈ findAllString encodedPattern html ∧ queryUnescape m = some d
      ∧ u = cleanURL parseOk d
      ∧ (hasPrefix u (ascii "http://dms.licdn.com/") = true
        ∨ hasPrefix u (ascii "https://dms.licdn.com/") = true) := by
  obtain ⟨hc, hne⟩ := (extractVideoURLs_mem_iff parseOk html u).mp hu
  unfold candidates at hc
  rw [h1, h3, h4, h5] at hc
  simp only [List.nil_append, List.append_nil] at hc
  obtain ⟨d, hd, hdu⟩ := List.mem_map.mp hc
  unfold decodedMatches at hd
  obtain ⟨m, hm, hmd⟩ := List.mem_filterMap.mp hd
  refine ⟨m, d, hm, hmd, hdu.symm, ?_⟩
  obtain ⟨x, hx | hx⟩ := findAllString_encoded_shape html m hm
  · left
    rw [hx] at hmd
    obtain ⟨y, hy⟩ := queryUnescape_http x d hmd
    rw [← hdu] at hne
    rw [hy] at hne hdu
    obtain ⟨z, hz⟩ := cleanURL_keeps_head parseOk _ y 47 (by decide) (by decide) (by decide) hne
    rw [← hdu, hz]
    have e : ascii "http://dms.licdn.com" ++ 47 :: z = ascii "http://dms.licdn.com/" ++ z := by
      have : ascii "http://dms.licdn.com/" = ascii "http://dms.licdn.com" ++ [47] := by decide
      rw [this]; simp
    rw [e]
    exact hasPrefix_append _ _
  · right
    rw [hx] at hmd
    obtain ⟨y, hy⟩ := queryUnescape_https x d hmd
    rw [← hdu] at hne
    rw [hy] at hne hdu
    obtain ⟨z, hz⟩ := cleanURL_keeps_head parseOk _ y 47 (by decide) (by decide) (by decide) hne
    rw [← hdu, hz]
    have e : ascii "https://dms.licdn.com" ++ 47 :: z = ascii "https://dms.licdn.com/" ++ z := by
      have : ascii "https://dms.licdn.com/" = ascii "https://dms.licdn.com" ++ [47] := by decide
      rw [this]; simp
    rw [e]
    exact hasPrefix_append _ _

set_option maxRecDepth 100000 in
theorem encodedPass_only_witness :
    ∃ m d, m ∈ findAllString encodedPattern (ascii "https:%2F%2Fdms.licdn.com%2Ffoo")
      ∧ queryUnescape m = some d
      ∧ ascii "https://dms.licdn.com/foo" = cleanURL parseAny d
      ∧ (hasPrefix (ascii "https://dms.licdn.com/foo") (ascii "http://dms.licdn.com/") = true
        ∨ hasPrefix (ascii "https://dms.licdn.com/foo") (ascii "https://dms.licdn.com/") = true) :=
  encodedPass_only parseAny (ascii "https:%2F%2Fdms.licdn.com%2Ffoo")
    (ascii "https://dms.licdn.com/foo") (by decide) (by decide) (by decide) (by decide)
    (by decide)

/-! ### Inputs on which a pattern cannot match -/

theorem starK_none_of_not_mem {α : Type} (c : Nat) (cls : Nat → Bool)
    (k : GoString → Option α) (hk : ∀ t, c ∉ t → k t = none) :
    ∀ s, c ∉ s → starK cls k s = none := by
  intro s
  induction s with
  | nil => intro h; exact hk [] h
  | cons x xs ih =>
    intro h
    have hxs : c ∉ xs := fun e => h (List.mem_cons_of_mem _ e)
    unfold starK
    rw [ih hxs, hk _ h]
    simp

theorem matchItems_none_of_not_mem (c : Nat) (items : List Item) (h : Item.byte c ∈ items) :
    ∀ gs ge s, c ∉ s → matchItems items gs ge s = none := by
  induction items with
  | nil => exact absurd h (List.not_mem_nil _)
  | cons it items ih =>
    intro gs ge s hs
    have tl : ∀ xs, xs <:+ s → c ∉ xs := fun xs hx e => hs (hx.subset e)
    cases it with
    | byte d =>
      cases s with
      | nil => simp [matchItems]
      | cons x xs =>
        simp only [matchItems]
        split_ifs with hx
        · rcases List.mem_cons.mp h with h | h
          · exfalso
            simp only [Item.byte.injEq] at h
            exact hs (by rw [h, ← hx]; exact List.mem_cons_self _ _)
          · exact ih h gs ge xs (tl xs (List.suffix_cons x xs))
        · rfl
    | opt d =>
      have h' : Item.byte c ∈ items := by
        rcases List.mem_cons.mp h with h | h
        · exact Item.noConfusion h
        · exact h
      cases s with
      | nil => simp only [matchItems]; exact ih h' gs ge [] hs
      | cons x xs =>
        simp only [matchItems]
        rw [ih h' gs ge xs (tl xs (List.suffix_cons x xs)), ih h' gs ge (x :: xs) hs]
        simp
    | star cls =>
      have h' : Item.byte c ∈ items := by
        rcases List.mem_cons.mp h with h | h
        · exact Item.noConfusion h
        · exact h
      simp only [matchItems]
      exact starK_none_of_not_mem c cls _ (fun t ht => ih h' gs ge t ht) s hs
    | plus cls =>
      have h' : Item.byte c ∈ items := by
        rcases List.mem_cons.mp h with h | h
        · exact Item.noConfusion h
        · exact h
      cases s with
      | nil => simp [matchItems]
      | cons x xs =>
        simp only [matchItems]
        rw [starK_none_of_not_mem c cls _ (fun t ht => ih h' gs ge t ht) xs
          (tl xs (List.suffix_cons x xs))]
        simp
    | groupOpen =>
      have h' : Item.byte c ∈ items := by
        rcases List.mem_cons.mp h with h | h
        · exact Item.noConfusion h
        · exact h
      simp only [matchItems]
      exact ih h' _ _ s hs
    | groupClose =>
      have h' : Item.byte c ∈ items := by
        rcases List.mem_cons.mp h with h | h
        · exact Item.noConfusion h
        · exact h
      simp only [matchItems]
      exact ih h' _ _ s hs

theorem findAllFrom_nil_of_no_match (items : List Item) :
    ∀ s, (∀ c cs, (c :: cs) <:+ s → matchItems items [] [] (c :: cs) = none) →
      ∀ n, findAllFrom items n s = [] := by
  intro s
  induction s with
  | nil => intro _ n; cases n <;> rfl
  | cons x xs ih =>
    intro h n
    have hxs := ih (fun c cs hc => h c cs (hc.trans (List.suffix_cons x xs)))
    cases n with
    | succ k => simp only [findAllFrom]; exact hxs k
    | zero =>
      simp only [findAllFrom]
      rw [h x xs (List.suffix_refl _)]
      exact hxs 0

theorem no_match_of_findAllFrom_nil (items : List Item) :
    ∀ s, findAllFrom items 0 s = [] →
      ∀ c cs, (c :: cs) <:+ s → matchItems items [] [] (c :: cs) = none := by
  intro s
  induction s with
  | nil =>
    intro _ c cs hc
    exact absurd (List.suffix_nil.mp hc) (List.cons_ne_nil c cs)
  | cons x xs ih =>
    intro h c cs hc
    simp only [findAllFrom] at h
    cases hm : matchItems items [] [] (x :: xs) with
    | some r => rw [hm] at h; exact absurd h (List.cons_ne_nil _ _)
    | none =>
      rw [hm] at h
      rcases List.suffix_cons_iff.mp hc with hc | hc
      · rw [hc]; exact hm
      · exact ih h c cs hc

theorem findAllString_nil_of_not_mem (c : Nat) (items : List Item) (h : Item.byte c ∈ items)
    (s : GoString) (hs : c ∉ s) : findAllFrom items 0 s = [] :=
  findAllFrom_nil_of_no_match items s
    (fun x xs hx => matchItems_none_of_not_mem c items h [] [] (x :: xs)
      (fun e => hs (hx.subset e))) 0

/-! ### Slash escaping -/

theorem mem_escapeSlashes (u : GoString) (x : Nat) (h : x ∈ escapeSlashes u) :
    (x ∈ u ∧ x ≠ 47) ∨ x ∈ unicodeSlash := by
  induction u with
  | nil => simp [escapeSlashes] at h
  | cons c cs ih =>
    unfold escapeSlashes at h
    split_ifs at h with hc
    · rcases List.mem_append.mp h with h | h
      · exact Or.inr h
      · rcases ih h with ⟨h1, h2⟩ | h1
        · exact Or.inl ⟨List.mem_cons_of_mem _ h1, h2⟩
        · exact Or.inr h1
    · rcases List.mem_cons.mp h with h | h
      · exact Or.inl ⟨h ▸ List.mem_cons_self _ _, h ▸ hc⟩
      · rcases ih h with ⟨h1, h2⟩ | h1
        · exact Or.inl ⟨List.mem_cons_of_mem _ h1, h2⟩
        · exact Or.inr h1

theorem slash_not_mem_escapeSlashes (u : GoString) : 47 ∉ escapeSlashes u := by
  intro h
  rcases mem_escapeSlashes u 47 h with ⟨_, h2⟩ | h1
  · exact h2 rfl
  · revert h1; decide

theorem quote_not_mem_escapeSlashes (u : GoString) (hu : 34 ∉ u) : 34 ∉ escapeSlashes u := by
  intro h
  rcases mem_escapeSlashes u 34 h with ⟨h1, _⟩ | h1
  · exact hu h1
  · revert h1; decide

theorem replaceAll_of_not_mem (old new s : GoString) (o : Nat) (os : GoString)
    (hold : old = o :: os) (h : o ∉ s) : replaceAll s old new = s := by
  have := replaceAll_append_of_not_mem old new s [] o os hold h
  rw [List.append_nil] at this
  rw [this]
  simp [replaceAll, replaceFrom]

theorem replaceAll_escapeSlashes (u : GoString) (hu : 92 ∉ u) :
    replaceAll (escapeSlashes u) unicodeSlash [47] = u := by
  unfold replaceAll
  induction u with
  | nil => rfl
  | cons c cs ih =>
    have hcs : 92 ∉ cs := fun e => hu (List.mem_cons_of_mem _ e)
    have hc : c ≠ 92 := fun e => hu (e ▸ List.mem_cons_self _ _)
    unfold escapeSlashes
    split_ifs with h47
    · have : replaceFrom unicodeSlash [47] 0 (unicodeSlash ++ escapeSlashes cs)
          = 47 :: replaceFrom unicodeSlash [47] 0 (escapeSlashes cs) := by
        simp [unicodeSlash, replaceFrom, hasPrefix]
      rw [this, ih hcs, h47]
    · have : hasPrefix (c :: escapeSlashes cs) unicodeSlash = false :=
        hasPrefix_cons_ne c 92 _ _ hc
      rw [replaceFrom, this]
      simp only [Bool.false_eq_true, if_false]
      rw [ih hcs]

theorem unescapeSlashes_escapeSlashes (u : GoString) (hu : 92 ∉ u) :
    unescapeSlashes (escapeSlashes u) = u := by
  unfold unescapeSlashes
  rw [replaceAll_escapeSlashes u hu, replaceAll_of_not_mem escapedSlash [47] u 92 [47] rfl hu]

theorem unescapeSlashes_of_not_mem (u : GoString) (hu : 92 ∉ u) : unescapeSlashes u = u := by
  unfold unescapeSlashes
  rw [replaceAll_of_not_mem unicodeSlash [47] u 92 _ rfl hu,
    replaceAll_of_not_mem escapedSlash [47] u 92 [47] rfl hu]

theorem escapeSlashes_initial (u : GoString) :
    ∀ w : GoString, w <+: escapeSlashes u → 92 ∉ w → w <+: u := by
  induction u with
  | nil => intro w hw _; simpa [escapeSlashes] using hw
  | cons c cs ih =>
    intro w hw h92
    unfold escapeSlashes at hw
    split_ifs at hw with hc
    · rcases List.prefix_cons_iff.mp hw with h | ⟨t, h, _⟩
      · rw [h]; exact List.nil_prefix
      · exact absurd (h ▸ List.mem_cons_self 92 t) h92
    · rcases List.prefix_cons_iff.mp hw with h | ⟨t, h, ht⟩
      · rw [h]; exact List.nil_prefix
      · rw [h]
        have : 92 ∉ t := fun e => h92 (h ▸ List.mem_cons_of_mem _ e)
        exact List.cons_prefix_cons.mpr ⟨rfl, ih t ht this⟩

theorem escapeSlashes_within (u : GoString) (h : Nat) (ws : GoString)
    (hh : h ≠ 92 ∧ h ≠ 117 ∧ h ≠ 48 ∧ h ≠ 50 ∧ h ≠ 70) (h92 : 92 ∉ h :: ws) :
    (h :: ws) <:+: escapeSlashes u → (h :: ws) <:+: u := by
  induction u with
  | nil => intro hw; simp [escapeSlashes] at hw
  | cons c cs ih =>
    intro hw
    unfold escapeSlashes at hw
    have step : ∀ (x : Nat) (l : GoString), x ≠ h → (h :: ws) <:+: x :: l → (h :: ws) <:+: l := by
      intro x l hx hl
      rcases List.infix_cons_iff.mp hl with hp | hi
      · exact absurd (List.cons_prefix_cons.mp hp).1.symm hx
      · exact hi
    split_ifs at hw with hc
    · obtain ⟨h1, h2, h3, h4, h5⟩ := hh
      have e : unicodeSlash ++ escapeSlashes cs
          = 92 :: 117 :: 48 :: 48 :: 50 :: 70 :: escapeSlashes cs := rfl
      rw [e] at hw
      have hw6 := step 70 _ (Ne.symm h5) (step 50 _ (Ne.symm h4) (step 48 _ (Ne.symm h3)
        (step 48 _ (Ne.symm h3) (step 117 _ (Ne.symm h2) (step 92 _ (Ne.symm h1) hw)))))
      exact List.infix_cons (ih hw6)
    · rcases List.infix_cons_iff.mp hw with hp | hi
      · have hp' : (h :: ws) <+: escapeSlashes (c :: cs) := by
          unfold escapeSlashes
          rw [if_neg hc]
          exact hp
        exact (escapeSlashes_initial (c :: cs) _ hp' h92).isInfix
      · exact List.infix_cons (ih hi)

/-! ### The percent-encoded pattern -/

theorem matchItems_bytes_append (p : GoString) (items : List Item) (gs ge t : GoString) :
    matchItems (p.map Item.byte ++ items) gs ge (p ++ t) = matchItems items gs ge t := by
  induction p with
  | nil => rfl
  | cons c cs ih => simp [matchItems, ih]

theorem starK_isSome {α : Type} (cls : Nat → Bool) (k : GoString → Option α)
    (hk : ∀ t, (k t).isSome = true) : ∀ s, (starK cls k s).isSome = true := by
  intro s
  induction s with
  | nil => exact hk []
  | cons c cs ih =>
    unfold starK
    split_ifs
    · cases hs : starK cls k cs with
      | some r => rfl
      | none => rw [hs] at ih; exact absurd ih (by simp)
    · exact hk _

theorem matchItems_opt_skip (c : Nat) (items : List Item) (gs ge s : GoString)
    (h : (matchItems items gs ge s).isSome = true) :
    (matchItems (Item.opt c :: items) gs ge s).isSome = true := by
  cases s with
  | nil => simpa [matchItems] using h
  | cons x xs =>
    simp only [matchItems]
    split_ifs
    · cases hm : matchItems items gs ge xs with
      | some r => rfl
      | none => exact h
    · exact h

theorem matchItems_opt_take (c : Nat) (items : List Item) (gs ge xs : GoString)
    (h : (matchItems items gs ge xs).isSome = true) :
    (matchItems (Item.opt c :: items) gs ge (c :: xs)).isSome = true := by
  simp only [matchItems, if_true]
  cases hm : matchItems items gs ge xs with
  | some r => rfl
  | none => rw [hm] at h; exact absurd h (by simp)

theorem encodedPattern_eq : encodedPattern = (ascii "http").map Item.byte ++ (Item.opt 115 ::
    ((ascii ":%2F%2Fdms.licdn.com%2F").map Item.byte ++ [Item.plus urlChar])) := by
  simp [encodedPattern, lits]

theorem encodedPattern_complete (x : Nat) (xs : GoString) (hx : urlChar x = true) :
    (matchItems encodedPattern [] [] (ascii "http:%2F%2Fdms.licdn.com%2F" ++ x :: xs)).isSome
        = true
      ∧ (matchItems encodedPattern [] [] (ascii "https:%2F%2Fdms.licdn.com%2F" ++ x :: xs)).isSome
        = true := by
  have e1 : ascii "http:%2F%2Fdms.licdn.com%2F"
      = ascii "http" ++ ascii ":%2F%2Fdms.licdn.com%2F" := by decide
  have e2 : ascii "https:%2F%2Fdms.licdn.com%2F"
      = ascii "http" ++ 115 :: ascii ":%2F%2Fdms.licdn.com%2F" := by decide
  have tail : (matchItems ((ascii ":%2F%2Fdms.licdn.com%2F").map Item.byte
      ++ [Item.plus urlChar]) [] [] (ascii ":%2F%2Fdms.licdn.com%2F" ++ x :: xs)).isSome
      = true := by
    rw [matchItems_bytes_append]
    simp only [matchItems, hx, if_true]
    exact starK_isSome urlChar _ (fun t => by simp [matchItems]) xs
  rw [encodedPattern_eq, e1, e2]
  constructor
  · rw [List.append_assoc, matchItems_bytes_append]
    exact matchItems_opt_skip _ _ _ _ _ tail
  · rw [List.append_assoc, matchItems_bytes_append, List.cons_append]
    exact matchItems_opt_take _ _ _ _ _ tail

theorem encodedPattern_sound (t : GoString) (r : MatchResult)
    (h : matchItems encodedPattern [] [] t = some r) :
    ∃ x xs, urlChar x = true ∧ (t = ascii "http:%2F%2Fdms.licdn.com%2F" ++ x :: xs
        ∨ t = ascii "https:%2F%2Fdms.licdn.com%2F" ++ x :: xs) := by
  rw [encodedPattern_eq] at h
  obtain ⟨t1, h1, h2⟩ := matchItems_bytes _ _ _ _ _ _ h
  have tail : ∀ u, matchItems ((ascii ":%2F%2Fdms.licdn.com%2F").map Item.byte
      ++ [Item.plus urlChar]) [] [] u = some r →
      ∃ x xs, urlChar x = true ∧ u = ascii ":%2F%2Fdms.licdn.com%2F" ++ x :: xs := by
    intro u hu
    obtain ⟨t', h3, h4⟩ := matchItems_bytes _ _ _ _ _ _ hu
    cases t' with
    | nil => simp [matchItems] at h4
    | cons x xs =>
      simp only [matchItems] at h4
      split_ifs at h4 with hx
      exact ⟨x, xs, hx, h3⟩
  have e1 : ascii "http:%2F%2Fdms.licdn.com%2F"
      = ascii "http" ++ ascii ":%2F%2Fdms.licdn.com%2F" := by decide
  have e2 : ascii "https:%2F%2Fdms.licdn.com%2F"
      = ascii "http" ++ 115 :: ascii ":%2F%2Fdms.licdn.com%2F" := by decide
  rcases matchItems_opt _ _ _ _ _ _ h2 with ⟨ys, h3, h4⟩ | h4
  · obtain ⟨x, xs, hx, h5⟩ := tail _ h4
    exact ⟨x, xs, hx, Or.inr (by rw [h1, h3, h5, e2]; simp)⟩
  · obtain ⟨x, xs, hx, h5⟩ := tail _ h4
    exact ⟨x, xs, hx, Or.inl (by rw [h1, h5, e1]; simp)⟩

theorem encoded_not_within (u p : GoString) (x : Nat) (hx : urlChar x = true)
    (hp : p = ascii "http:%2F%2Fdms.licdn.com%2F" ∨ p = ascii "https:%2F%2Fdms.licdn.com%2F")
    (hu : findAllFrom encodedPattern 0 u = []) : ¬ (p ++ [x]) <:+: u := by
  rintro ⟨a, b, hab⟩
  have hs : (p ++ x :: b) <:+ u := ⟨a, by rw [← hab]; simp⟩
  have hcomp := encodedPattern_complete x b hx
  have hne : matchItems encodedPattern [] [] (p ++ x :: b) = none := by
    cases hpb : p ++ x :: b with
    | nil => exact absurd hpb (by simp)
    | cons y ys =>
      rw [hpb] at hs
      exact no_match_of_findAllFrom_nil encodedPattern u hu y ys hs
  rcases hp with hp | hp
  · subst hp
    rw [hne] at hcomp
    exact absurd hcomp.1 (by simp)
  · subst hp
    rw [hne] at hcomp
    exact absurd hcomp.2 (by simp)

theorem urlChar_ne_backslash (x : Nat) (hx : urlChar x = true) : x ≠ 92 := by
  intro e
  rw [e] at hx
  exact absurd hx (by decide)

theorem encoded_escapeSlashes (u : GoString) (hu : findAllString encodedPattern u = []) :
    findAllString encodedPattern (escapeSlashes u) = [] := by
  unfold findAllString at hu ⊢
  rw [List.map_eq_nil_iff] at hu ⊢
  apply findAllFrom_nil_of_no_match
  intro c cs hc
  cases hm : matchItems encodedPattern [] [] (c :: cs) with
  | none => rfl
  | some r =>
    exfalso
    obtain ⟨x, xs, hx, ht⟩ := encodedPattern_sound _ r hm
    have hx92 := urlChar_ne_backslash x hx
    have key : ∀ p : GoString, (p = ascii "http:%2F%2Fdms.licdn.com%2F"
        ∨ p = ascii "https:%2F%2Fdms.licdn.com%2F") → c :: cs = p ++ x :: xs → False := by
      intro p hp hcs
      have hinf : (p ++ [x]) <:+: escapeSlashes u := by
        have : (p ++ [x]) <+: (c :: cs) := ⟨xs, by rw [hcs]; simp⟩
        exact this.isInfix.trans hc.isInfix
      have hp92 : 92 ∉ p ++ [x] := by
        intro hmem
        rcases List.mem_append.mp hmem with h1 | h1
        · rcases hp with hp | hp <;> (subst hp; revert h1; decide)
        · exact hx92 (List.mem_singleton.mp h1).symm
      have hhead : ∃ ws, p ++ [x] = 104 :: ws := by
        rcases hp with hp | hp <;> (subst hp; exact ⟨_, rfl⟩)
      obtain ⟨ws, hws⟩ := hhead
      rw [hws] at hinf hp92
      have := escapeSlashes_within u 104 ws (by decide) hp92 hinf
      rw [← hws] at this
      exact encoded_not_within u p x hx hp hu this
    rcases ht with ht | ht
    · exact key _ (Or.inl rfl) ht
    · exact key _ (Or.inr rfl) ht

/-! ### The loops of `extractVideoURLs` on repeated candidates -/

theorem addURL_seen_mono (st : ExtractState) (c x : GoString) (h : x ∈ st.seen) :
    x ∈ (addURL st c).seen := by
  unfold addURL
  split_ifs
  · exact List.mem_cons_of_mem _ h
  · exact h

theorem foldl_addURL_seen_mono (l : List GoString) (st : ExtractState) (x : GoString)
    (h : x ∈ st.seen) : x ∈ (l.foldl addURL st).seen := by
  induction l generalizing st with
  | nil => exact h
  | cons c cs ih => exact ih _ (addURL_seen_mono st c x h)

theorem foldl_addURL_seen (l : List GoString) (st : ExtractState) (x : GoString)
    (hx : x ∈ l) (hne : x ≠ []) : x ∈ (l.foldl addURL st).seen := by
  induction l generalizing st with
  | nil => exact absurd hx (List.not_mem_nil _)
  | cons c cs ih =>
    rcases List.mem_cons.mp hx with h | h
    · rw [List.foldl_cons]
      apply foldl_addURL_seen_mono
      subst h
      unfold addURL
      split_ifs with hc
      · exact List.mem_cons_self _ _
      · by_contra hns
        exact hc ⟨hne, hns⟩
    · exact ih _ h

theorem foldl_addURL_noop (l : List GoString) (st : ExtractState)
    (h : ∀ x ∈ l, x ≠ [] → x ∈ st.seen) : l.foldl addURL st = st := by
  induction l with
  | nil => rfl
  | cons c cs ih =>
    have hc : addURL st c = st := by
      unfold addURL
      rw [if_neg]
      rintro ⟨h1, h2⟩
      exact h2 (h c (List.mem_cons_self _ _) h1)
    rw [List.foldl_cons, hc]
    exact ih (fun x hx => h x (List.mem_cons_of_mem _ hx))

theorem foldl_addURL_twice (l : List GoString) (st : ExtractState) :
    (l ++ l).foldl addURL st = l.foldl addURL st := by
  rw [List.foldl_append]
  exact foldl_addURL_noop l _ (fun x hx hne => foldl_addURL_seen l st x hx hne)

theorem directMatches_nil_of_no_slash (s : GoString) (h : 47 ∉ s) : directMatches s = [] := by
  unfold directMatches findAllString
  rw [findAllString_nil_of_not_mem 47 playlistMp4Pattern
      (by simp [playlistMp4Pattern, lits, ascii]) s h,
    findAllString_nil_of_not_mem 47 playlistVidPattern
      (by simp [playlistVidPattern, lits, ascii]) s h,
    findAllString_nil_of_not_mem 47 licdnVideoPattern
      (by simp [licdnVideoPattern, lits, ascii]) s h]
  rfl

theorem submatches_nil_of_no_quote (s : GoString) (h : 34 ∉ s) :
    findAllSubmatch1 videoSrcPattern s = [] ∧ findAllSubmatch1 contentURLPattern s = [] := by
  unfold findAllSubmatch1
  rw [findAllString_nil_of_not_mem 34 videoSrcPattern (by simp [videoSrcPattern]) s h,
    findAllString_nil_of_not_mem 34 contentURLPattern (by simp [contentURLPattern]) s h]
  exact ⟨rfl, rfl⟩

set_option maxRecDepth 100000 in
/-- C8 (counterexample): the URL
`https://dms.licdn.com/playlist/vid/abc?next=https:%2F%2Fdms.licdn.com%2Fx` matches
the second direct pattern and has no whitespace, quote or backslash.  On the URL
itself the direct pass comes first and the result is the URL followed by
`https://dms.licdn.com/x`; on its unicode-escaped form the percent-encoded pass
comes first and the same two URLs are returned in the opposite order. -/
theorem escapeSlashes_counterexample :
    findAllString playlistVidPattern
        (ascii "https://dms.licdn.com/playlist/vid/abc?next=https:%2F%2Fdms.licdn.com%2Fx")
        = [ascii "https://dms.licdn.com/playlist/vid/abc?next=https:%2F%2Fdms.licdn.com%2Fx"]
      ∧ (∀ c ∈ ascii "https://dms.licdn.com/playlist/vid/abc?next=https:%2F%2Fdms.licdn.com%2Fx",
          urlChar c = true)
      ∧ extractVideoURLs parseAny
          (ascii "https://dms.licdn.com/playlist/vid/abc?next=https:%2F%2Fdms.licdn.com%2Fx")
        = [ascii "https://dms.licdn.com/playlist/vid/abc?next=https:%2F%2Fdms.licdn.com%2Fx",
            ascii "https://dms.licdn.com/x"]
      ∧ extractVideoURLs parseAny (escapeSlashes
          (ascii "https://dms.licdn.com/playlist/vid/abc?next=https:%2F%2Fdms.licdn.com%2Fx"))
        = [ascii "https://dms.licdn.com/x",
            ascii "https://dms.licdn.com/playlist/vid/abc?next=https:%2F%2Fdms.licdn.com%2Fx"]
      ∧ extractVideoURLs parseAny (escapeSlashes
          (ascii "https://dms.licdn.com/playlist/vid/abc?next=https:%2F%2Fdms.licdn.com%2Fx"))
        ≠ extractVideoURLs parseAny
          (ascii "https://dms.licdn.com/playlist/vid/abc?next=https:%2F%2Fdms.licdn.com%2Fx") := by
  decide

/-- C8 (amended): for every string `u` (in particular every URL matching a direct
pattern) that contains no whitespace, quote or backslash and in which the
percent-encoded pattern has no match, `extractVideoURLs` applied to `u` with
every "/" written as the six bytes of the unicode escape returns the same list
as `extractVideoURLs` applied to `u` itself. -/
theorem escapeSlashes_recovered (parseOk : GoString → Bool) (u : GoString)
    (hclean : ∀ c ∈ u, urlChar c = true)
    (henc : findAllString encodedPattern u = []) :
    extractVideoURLs parseOk (escapeSlashes u) = extractVideoURLs parseOk u := by
  have h92 : 92 ∉ u := fun h => absurd (hclean 92 h) (by decide)
  have h34 : 34 ∉ u := fun h => absurd (hclean 34 h) (by decide)
  have hsub := submatches_nil_of_no_quote u h34
  have hsub' := submatches_nil_of_no_quote (escapeSlashes u) (quote_not_mem_escapeSlashes u h34)
  have hdec : decodedMatches u = [] := by unfold decodedMatches; rw [henc]; rfl
  have hdec' : decodedMatches (escapeSlashes u) = [] := by
    unfold decodedMatches; rw [encoded_escapeSlashes u henc]; rfl
  have hc : candidates parseOk u
      = (directMatches u).map (cleanURL parseOk) ++ (directMatches u).map (cleanURL parseOk) := by
    unfold candidates
    rw [hdec, unescapeSlashes_of_not_mem u h92, hsub.1, hsub.2]
    simp
  have hc' : candidates parseOk (escapeSlashes u) = (directMatches u).map (cleanURL parseOk) := by
    unfold candidates
    rw [hdec', unescapeSlashes_escapeSlashes u h92, hsub'.1, hsub'.2,
      directMatches_nil_of_no_slash _ (slash_not_mem_escapeSlashes u)]
    simp
  rw [extractVideoURLs_eq, extractVideoURLs_eq, hc, hc', foldl_addURL_twice]

set_option maxRecDepth 100000 in
theorem escapeSlashes_recovered_witness :
    extractVideoURLs parseAny
        (escapeSlashes (ascii "https://dms.licdn.com/playlist/vid/abc/d.mp4?e=1&v=2"))
      = extractVideoURLs parseAny (ascii "https://dms.licdn.com/playlist/vid/abc/d.mp4?e=1&v=2")
      ∧ extractVideoURLs parseAny (ascii "https://dms.licdn.com/playlist/vid/abc/d.mp4?e=1&v=2")
        = [ascii "https://dms.licdn.com/playlist/vid/abc/d.mp4?e=1&v=2"] :=
  ⟨escapeSlashes_recovered parseAny (ascii "https://dms.licdn.com/playlist/vid/abc/d.mp4?e=1&v=2")
    (by decide) (by decide), by decide⟩

end LinkedinVideoDl
